import Mathlib

/-!
# Verification of the PySmaz short-string compressor (`lib/smaz.py`)

A shallow embedding of the PySmaz library.  Python strings are modelled as
`List Nat` of character codes (bytes are values `< 256`).  The integer
division in `_worst_size` is Python 2 floor division (the library targets
Python 2, as its test-suite's use of `xrange` shows), so it is modelled by
`Nat` division.  Exceptions are modelled by `Option`/`Except` results, and
the `raise_on_error` switch of `decompress` by a three-valued result type.
-/

namespace PySmaz

/-- `BACKTRACK_LIMIT = 254` (smaz.py line 204). -/
def BACKTRACK_LIMIT : Nat := 254

/-- `_check_ascii(sstr)` (smaz.py lines 316-318): true iff every character
code is `< 128`. -/
def check_ascii_fn (s : List Nat) : Bool := s.all fun c => c < 128

/-- `_worst_size(str_len)` (smaz.py lines 354-363).  `/` is Python 2 floor
division on ints, i.e. `Nat` division. -/
def worst_size (str_len : Nat) : Nat :=
  if str_len = 0 then 0
  else if str_len = 1 then 2
  else if str_len % 255 = 0 ∨ str_len % 255 = 1 then
    (str_len / 255) * 2 + str_len + str_len % 255
  else
    (str_len / 255 + 1) * 2 + str_len

/-- `_encapsulate_list(input_list)` (smaz.py lines 337-351): chunk the input
into blocks of at most 255 bytes; a block of length 1 is emitted as tag 254
followed by the byte, a longer block as tag 255, a byte holding
`length - 1`, and the raw block. -/
def encapsulate_list (input_list : List Nat) : List Nat :=
  if input_list = [] then []
  else if input_list.length ≤ 255 then
    if input_list.length = 1 then 254 :: input_list
    else 255 :: (input_list.length - 1) :: input_list
  else (255 :: 254 :: input_list.take 255) ++ encapsulate_list (input_list.drop 255)
termination_by input_list.length
decreasing_by
  simp only [List.length_drop]
  omega

/-- `_encapsulate(input_str)` (smaz.py lines 321-334): identical chunking to
`_encapsulate_list`, operating on a string instead of a list of characters. -/
def encapsulate (input_str : List Nat) : List Nat :=
  if input_str = [] then []
  else if input_str.length ≤ 255 then
    if input_str.length = 1 then 254 :: input_str
    else 255 :: (input_str.length - 1) :: input_str
  else (255 :: 254 :: input_str.take 255) ++ encapsulate (input_str.drop 255)
termination_by input_str.length
decreasing_by
  simp only [List.length_drop]
  omega

/-- The default dictionary `DECODE` (smaz.py lines 290-310), as source
strings. -/
def DECODE_STRINGS : List String :=
  [" ", "the", "e", "t", "a", "of", "o", "and", "i", "n", "s", "e ", "r", " th",
   " t", "in", "he", "th", "h", "he ", "to", "\r\n", "l", "s ", "d", " a", "an",
   "er", "c", " o", "d ", "on", " of", "re", "of ", "t ", ", ", "is", "u", "at",
   "   ", "n ", "or", "which", "f", "m", "as", "it", "that", "\n", "was", "en",
   "  ", " w", "es", " an", " i", "\r", "f ", "g", "p", "nd", " s", "nd ", "ed ",
   "w", "ed", "http://", "for", "te", "ing", "y ", "The", " c", "ti", "r ", "his",
   "st", " in", "ar", "nt", ",", " to", "y", "ng", " h", "with", "le", "al", "to ",
   "b", "ou", "be", "were", " b", "se", "o ", "ent", "ha", "ng ", "their", "\"",
   "hi", "from", " f", "in ", "de", "ion", "me", "v", ".", "ve", "all", "re ",
   "ri", "ro", "is ", "co", "f t", "are", "ea", ". ", "her", " m", "er ", " p",
   "es ", "by", "they", "di", "ra", "ic", "not", "s, ", "d t", "at ", "ce", "la",
   "h ", "ne", "as ", "tio", "on ", "n t", "io", "we", " a ", "om", ", a", "s o",
   "ur", "li", "ll", "ch", "had", "this", "e t", "g ", "e\r\n", " wh", "ere",
   " co", "e o", "a ", "us", " d", "ss", "\n\r\n", "\r\n\r", "=\"", " be", " e",
   "s a", "ma", "one", "t t", "or ", "but", "el", "so", "l ", "e s", "s,", "no",
   "ter", " wa", "iv", "ho", "e a", " r", "hat", "s t", "ns", "ch ", "wh", "tr",
   "ut", "/", "have", "ly ", "ta", " ha", " on", "tha", "-", " l", "ati", "en ",
   "pe", " re", "there", "ass", "si", " fo", "wa", "ec", "our", "who", "its", "z",
   "fo", "rs", ">", "ot", "un", "<", "im", "th ", "nc", "ate", "><", "ver", "ad",
   " we", "ly", "ee", " n", "id", " cl", "ac", "il", "</", "rt", " wi", "div",
   "e, ", " it", "whi", " ma", "ge", "x", "e c", "men", ".com"]

/-- The default dictionary as byte lists. -/
def DECODE : List (List Nat) := DECODE_STRINGS.map fun t => t.toList.map Char.toNat

/-- The core decoding loop of `decompress` (smaz.py lines 564-588):
a byte `< 254` looks up the decode table (an out-of-range index is the
Python `IndexError`, modelled as `none`); byte 254 takes the next byte
verbatim; byte 255 reads a length byte `L` and then `L + 1` verbatim
payload bytes, failing if the run would pass the end of the input. -/
def decompress_raw (tbl : List (List Nat)) : List Nat → Option (List Nat)
  | [] => some []
  | ch :: rest =>
    if ch < 254 then
      (tbl[ch]?).bind fun entry =>
        (decompress_raw tbl rest).bind fun out => some (entry ++ out)
    else
      match rest with
      | [] => none
      | nb :: rest2 =>
        if ch = 254 then
          (decompress_raw tbl rest2).bind fun out => some (nb :: out)
        else
          if rest2.length < nb + 1 then none
          else
            (decompress_raw tbl (rest2.drop (nb + 1))).bind fun out =>
              some (rest2.take (nb + 1) ++ out)
termination_by l => l.length
decreasing_by
  all_goals simp only [List.length_cons, List.length_drop]
  all_goals omega

/-- Unconditional unfolding of `decompress_raw` on a non-empty stream. -/
theorem decompress_raw_cons (tbl : List (List Nat)) (ch : Nat) (rest : List Nat) :
    decompress_raw tbl (ch :: rest) =
      if ch < 254 then
        (tbl[ch]?).bind fun entry =>
          (decompress_raw tbl rest).bind fun out => some (entry ++ out)
      else
        match rest with
        | [] => none
        | nb :: rest2 =>
          if ch = 254 then
            (decompress_raw tbl rest2).bind fun out => some (nb :: out)
          else
            if rest2.length < nb + 1 then none
            else
              (decompress_raw tbl (rest2.drop (nb + 1))).bind fun out =>
                some (rest2.take (nb + 1) ++ out) := by
  cases rest with
  | nil =>
    rw [decompress_raw.eq_2]
  | cons nb rest2 =>
    rw [decompress_raw.eq_3]

/-- Unfolding of `decompress_raw` at a tag byte `≥ 254` with a follow-up
byte present. -/
theorem decompress_raw_cons2 (tbl : List (List Nat)) (ch nb : Nat) (rest2 : List Nat)
    (hch : ¬ ch < 254) :
    decompress_raw tbl (ch :: nb :: rest2) =
      if ch = 254 then
        (decompress_raw tbl rest2).bind fun out => some (nb :: out)
      else
        if rest2.length < nb + 1 then none
        else
          (decompress_raw tbl (rest2.drop (nb + 1))).bind fun out =>
            some (rest2.take (nb + 1) ++ out) := by
  rw [decompress_raw.eq_3, if_neg hch]

/-- Result of a `decompress` call: success, a raised `ValueError`
(`raise_on_error=True`), or the `None` sentinel (`raise_on_error=False`). -/
inductive DecompressResult where
  | ok (out : List Nat)
  | raised
  | sentinel
deriving DecidableEq, Repr

/-- `decompress(input_str, raise_on_error, check_ascii, decompress_table)`
(smaz.py lines 546-596).  An empty input is returned unchanged; a falsy
(`[]`) table argument selects the default `DECODE` table; after decoding,
the optional ASCII check may fail the call. -/
def decompress (input_str : List Nat) (raise_on_error : Bool) (check_ascii : Bool)
    (decompress_table : List (List Nat)) : DecompressResult :=
  if input_str = [] then .ok []
  else
    let tbl := if decompress_table = [] then DECODE else decompress_table
    match decompress_raw tbl input_str with
    | none => if raise_on_error then .raised else .sentinel
    | some out =>
      if check_ascii ∧ ¬ (check_ascii_fn out = true) then
        if raise_on_error then .raised else .sentinel
      else .ok out

/-! ## The dictionary trie

`make_trie` (smaz.py lines 207-251) builds its trie from mutable nested
256-entry lists; a node is `None` or a pair `[terminal_byte, children]`.
During insertion every node's `children` is a real 256-entry list
(`PTrie`); the post-pass then replaces children lists that are still the
all-`None` `empty_node` with `None` (`Trie`, whose child pointers are
optional).  The imperative in-place insertion is rendered as path-copying
recursion over the inserted string. -/

/-- A trie node as built during insertion: 256 slots, each empty or a
`(terminal code, children)` pair. -/
inductive PTrie where
  | node (es : List (Option (Option Nat × PTrie))) : PTrie

/-- A trie node after the `make_trie` post-pass: empty children lists have
been replaced by `None`. -/
inductive Trie where
  | node (es : List (Option (Option Nat × Option Trie))) : Trie

def PTrie.entries : PTrie → List (Option (Option Nat × PTrie))
  | .node es => es

def Trie.entries : Trie → List (Option (Option Nat × Option Trie))
  | .node es => es

/-- `empty_node` (smaz.py line 215): 256 empty slots. -/
def emptyP : PTrie := .node (List.replicate 256 none)

/-- One insertion of `make_trie`'s outer `for` body (smaz.py lines
222-240): walk the string `cs`, creating missing nodes; at the last
character store the code, failing if a code is already present there. -/
def insert_str (code : Nat) : PTrie → List Nat → Except Unit PTrie
  | t, [] => .ok t
  | .node es, c :: cs =>
    if es.length ≤ c then .error ()  -- `node_ptr[ord(ch)]`: IndexError
    else
    match es.getD c none with
    | none =>
      if cs = [] then .ok (.node (es.set c (some (some code, emptyP))))
      else
        match insert_str code emptyP cs with
        | .error e => .error e
        | .ok child => .ok (.node (es.set c (some (none, child))))
    | some (term, children) =>
      if cs = [] then
        match term with
        | none => .ok (.node (es.set c (some (some code, children))))
        | some _ => .error ()
      else
        match insert_str code children cs with
        | .error e => .error e
        | .ok child => .ok (.node (es.set c (some (term, child))))

/-- The insertion loop of `make_trie`: entries are inserted in list order,
entry `i` receiving code `i` (`enc` is the code of the next entry). -/
def insert_all (enc : Nat) (t : PTrie) : List (List Nat) → Except Unit PTrie
  | [] => .ok t
  | sstr :: rest =>
    match insert_str enc t sstr with
    | .error e => .error e
    | .ok t2 => insert_all (enc + 1) t2 rest

/-- The `children == empty_node` test of the post-pass (smaz.py line 247):
a 256-entry list of `None`s. -/
def isEmptyNode (t : PTrie) : Bool :=
  t.entries.length = 256 && t.entries.all fun e => e.isNone

/-- The post-pass of `make_trie` (smaz.py lines 241-250): replace children
lists that are still `empty_node` with `None`. -/
def pruneP (t : PTrie) : Trie :=
  match t with
  | .node es =>
    .node (es.attach.map fun e =>
      match e with
      | ⟨none, _⟩ => none
      | ⟨some (term, child), _⟩ =>
        if isEmptyNode child then some (term, none)
        else some (term, some (pruneP child)))
termination_by t
decreasing_by
  rename_i hmem hne
  have hm := List.sizeOf_lt_of_mem hmem
  simp only [Option.some.sizeOf_spec, Prod.mk.sizeOf_spec] at hm
  simp only [PTrie.node.sizeOf_spec]
  omega

/-- `make_trie(decode_table)` (smaz.py lines 207-251): fails on an empty
table or on more than 254 entries, then inserts every entry and prunes. -/
def make_trie (decode_table : List (List Nat)) : Except Unit Trie :=
  if decode_table = [] then .error ()
  else if 254 < decode_table.length then .error ()
  else
    match insert_all 0 emptyP decode_table with
    | .error e => .error e
    | .ok t => .ok (pruneP t)

/-- `SMAZ_TREE = make_trie(DECODE)` (smaz.py line 313).  `make_trie`
succeeds on `DECODE` (proved below); the fallback branch is never taken. -/
def SMAZ_TREE : Trie :=
  (make_trie DECODE).toOption.getD (.node (List.replicate 256 none))

/-- Terminal code stored in a pre-prune trie at the end of a non-empty
path (the value the encoder's longest-match search recovers). -/
def lookupP : PTrie → List Nat → Option Nat
  | _, [] => none
  | t, c :: cs =>
    match t.entries.getD c none with
    | none => none
    | some (term, children) =>
      match cs with
      | [] => term
      | _ :: _ => lookupP children cs

/-- Terminal code stored in a pruned trie at the end of a non-empty path. -/
def lookupT : Trie → List Nat → Option Nat
  | _, [] => none
  | t, c :: cs =>
    match t.entries.getD c none with
    | none => none
    | some (term, children) =>
      match cs with
      | [] => term
      | _ :: _ =>
        match children with
        | none => none
        | some t2 => lookupT t2 cs

/-- Well-formedness of a pre-prune trie: every node has exactly 256 slots
(as every node list built by `make_trie` does). -/
def wfP (t : PTrie) : Bool :=
  match t with
  | .node es =>
    ((es.length = 256 : Bool)) &&
      es.attach.all fun e =>
        match e with
        | ⟨none, _⟩ => true
        | ⟨some (term, child), _⟩ => wfP child
termination_by t
decreasing_by
  rename_i hmem
  have hm := List.sizeOf_lt_of_mem hmem
  simp only [Option.some.sizeOf_spec, Prod.mk.sizeOf_spec] at hm
  simp only [PTrie.node.sizeOf_spec]
  omega

/-! ## The encoders -/

/-- The inner matching loop shared by `compress` (smaz.py lines 422-433)
and `compress_classic` (lines 514-525): starting `j` characters past
`pos`, walk the trie on successive characters, remembering the code and
length of the longest terminal seen, and stop at a missing child pointer
or at the end of the input.  A `None` slot acts as `terminal_tree_node`
`(None, None)`: it leaves the best match unchanged and stops the walk. -/
def search_loop (s : List Nat) (pos : Nat) (t : Trie) (j : Nat)
    (best : Option (Nat × Nat)) : Option (Nat × Nat) :=
  if _h : j < s.length - pos then
    let best2 := match ((t.entries.getD (s.getD (pos + j) 0) none).getD (none, none)).1 with
      | some b => some (b, j + 1)
      | none => best
    match ((t.entries.getD (s.getD (pos + j) 0) none).getD (none, none)).2 with
    | none => best2
    | some t2 => search_loop s pos t2 (j + 1) best2
  else best
termination_by s.length - pos - j
decreasing_by omega

/-- A successful search result either is the passed-in best match, or has
length greater than the starting offset `j` and within the remaining
input. -/
theorem search_loop_cases (s : List Nat) (pos : Nat) :
    ∀ n t j best c L, s.length - pos - j ≤ n →
      search_loop s pos t j best = some (c, L) →
      best = some (c, L) ∨ (j < L ∧ L ≤ s.length - pos) := by
  intro n
  induction n with
  | zero =>
    intro t j best c L hn h
    rw [search_loop, dif_neg (by omega)] at h
    exact Or.inl h
  | succ m ih =>
    intro t j best c L _hn h
    rw [search_loop] at h
    by_cases hj : j < s.length - pos
    · rw [dif_pos hj] at h
      simp only at h
      split at h
      · -- child pointer missing: the current best2 is returned
        split at h
        · simp only [Option.some.injEq, Prod.mk.injEq] at h
          exact Or.inr (by omega)
        · exact Or.inl h
      · -- descend into the child
        rcases ih _ (j + 1) _ c L (by omega) h with h2 | h2
        · split at h2
          · simp only [Option.some.injEq, Prod.mk.injEq] at h2
            exact Or.inr (by omega)
          · exact Or.inl h2
        · exact Or.inr (by omega)
    · rw [dif_neg hj] at h
      exact Or.inl h

/-- Starting a fresh search: success means a positive matched length that
stays within the input. -/
theorem search_loop_pos (s : List Nat) (pos : Nat) (t : Trie) (c L : Nat)
    (h : search_loop s pos t 0 none = some (c, L)) : 0 < L ∧ L ≤ s.length - pos := by
  rcases search_loop_cases s pos (s.length - pos) t 0 none c L (by omega) h with h2 | h2
  · exact absurd h2.symm (by simp)
  · exact h2

/-- The main loop of `compress` (smaz.py lines 421-474) with its final
flush.  The four buffers and the two positions are threaded explicitly;
`anchor` is `last_backtrack_pos`.  On an unmatched character, a mode
switch (a non-empty code run, or the end of the input) triggers the
backtracking decision between the unmerge, merge and defer branches; on a
match the unmatched pool is encapsulated into the backtrack buffer and the
code appended to the code run. -/
def compress_loop (tree : Trie) (bt : Bool) (btLimit : Nat) (s : List Nat)
    (output unmatched btBuff encBuf : List Nat) (anchor pos : Nat) : List Nat :=
  if hp : pos < s.length then
    match hs : search_loop s pos tree 0 none with
    | none =>
      let unmatched2 := unmatched ++ [s.getD pos 0]
      let pos2 := pos + 1
      if 0 < encBuf.length ∨ s.length = pos2 then
        let mergeLen := worst_size (pos2 - anchor)
        let unmergeLen := btBuff.length + encBuf.length + worst_size unmatched2.length
        if unmergeLen + 2 < mergeLen ∨ btLimit < pos2 - anchor ∨ bt = false then
          compress_loop tree bt btLimit s (output ++ btBuff ++ encBuf) unmatched2 [] []
            (pos2 - 1) pos2
        else if mergeLen < unmergeLen then
          compress_loop tree bt btLimit s output ((s.take pos2).drop anchor) [] [] anchor pos2
        else if s.length = pos2 then
          compress_loop tree bt btLimit s output []
            (btBuff ++ encBuf ++ encapsulate_list unmatched2) [] anchor pos2
        else
          compress_loop tree bt btLimit s output unmatched2 (btBuff ++ encBuf) [] anchor pos2
      else
        compress_loop tree bt btLimit s output unmatched2 btBuff encBuf anchor pos2
    | some (code, encLen) =>
      let btBuff2 := if unmatched = [] then btBuff else btBuff ++ encapsulate_list unmatched
      compress_loop tree bt btLimit s output [] btBuff2 (encBuf ++ [code]) anchor (pos + encLen)
  else
    output ++ btBuff ++ encapsulate_list unmatched ++ encBuf
termination_by s.length - pos
decreasing_by
  all_goals try omega
  have := (search_loop_pos s pos tree code encLen hs).1
  omega

/-- `compress(input_str, check_ascii, raise_on_error, compression_tree,
backtracking, pathological_case_detection, backtrack_limit)` (smaz.py
lines 371-486).  An empty input is returned unchanged; a failed ASCII
check raises (or returns the `None` sentinel) — both modelled as `none`;
finally, if pathological-case detection is on and the output grew beyond
`_worst_size`, the unconditionally encapsulated input is returned. -/
def compress (input_str : List Nat) (check_ascii : Bool) (tree : Trie)
    (backtracking : Bool) (pathological_case_detection : Bool)
    (backtrack_limit : Nat) : Option (List Nat) :=
  if input_str = [] then some []
  else if check_ascii ∧ ¬ (check_ascii_fn input_str = true) then none
  else
    let output := compress_loop tree backtracking backtrack_limit input_str [] [] [] [] 0 0
    if pathological_case_detection ∧ worst_size input_str.length < output.length then
      some (encapsulate input_str)
    else some output

/-- The main loop of `compress_classic` (smaz.py lines 513-538) with its
final flush: greedy matching with immediate encapsulation of the unmatched
pool on entering a code run, no backtracking. -/
def compress_classic_loop (s : List Nat) (output unmatched : List Nat) (pos : Nat) : List Nat :=
  if hp : pos < s.length then
    match hs : search_loop s pos SMAZ_TREE 0 none with
    | none => compress_classic_loop s output (unmatched ++ [s.getD pos 0]) (pos + 1)
    | some (code, encLen) =>
      let output2 := if unmatched = [] then output else output ++ encapsulate_list unmatched
      compress_classic_loop s (output2 ++ [code]) [] (pos + encLen)
  else if unmatched = [] then output
  else output ++ encapsulate_list unmatched
termination_by s.length - pos
decreasing_by
  all_goals try omega
  have := (search_loop_pos s pos SMAZ_TREE code encLen hs).1
  omega

/-- `compress_classic(input_str, pathological_case_detection)` (smaz.py
lines 489-543). -/
def compress_classic (input_str : List Nat) (pathological_case_detection : Bool) : List Nat :=
  if input_str = [] then []
  else
    let output := compress_classic_loop input_str [] [] 0
    if pathological_case_detection ∧ worst_size input_str.length < output.length then
      encapsulate input_str
    else output

/-- Byte list of a string literal (for stating concrete examples). -/
def strBytes (t : String) : List Nat := t.toList.map Char.toNat

/-! ## Properties of encapsulation and `_worst_size` -/

/-- `_encapsulate_list` and `_encapsulate` perform the same chunking. -/
theorem encapsulate_list_eq (l : List Nat) : encapsulate_list l = encapsulate l := by
  induction l using encapsulate_list.induct with
  | case1 => rw [encapsulate_list, encapsulate]; simp
  | case2 x h1 h2 h3 => rw [encapsulate_list, encapsulate]; simp [h1, h2, h3]
  | case3 x h1 h2 h3 => rw [encapsulate_list, encapsulate]; simp [h1, h2, h3]
  | case4 x h1 h2 ih => rw [encapsulate_list, encapsulate]; simp [h1, h2, ih]

/-- `_worst_size` is exactly the length of the unconditional encapsulation. -/
theorem length_encapsulate (l : List Nat) : (encapsulate l).length = worst_size l.length := by
  induction l using encapsulate.induct with
  | case1 =>
    rw [encapsulate, worst_size]
    simp
  | case2 x h1 h2 h3 =>
    rw [encapsulate, worst_size]
    simp only [if_neg h1, if_pos h2, if_pos h3, List.length_cons]
    split_ifs <;> omega
  | case3 x h1 h2 h3 =>
    rw [encapsulate, worst_size]
    simp only [if_neg h1, if_pos h2, if_neg h3, List.length_cons]
    have h0 : 0 < x.length := List.length_pos.mpr h1
    split_ifs <;> omega
  | case4 x h1 h2 ih =>
    rw [encapsulate, worst_size]
    have hlen : (x.drop 255).length = x.length - 255 := List.length_drop 255 x
    have htk : (x.take 255).length = 255 := by
      simp only [List.length_take]
      omega
    simp only [if_neg h1, if_neg h2, List.length_append, List.length_cons, htk, ih, hlen]
    rw [worst_size]
    split_ifs <;> omega

/-- Decoding an encapsulated string returns it unchanged; the decode table
is never consulted (only tags 254 and 255 occur). -/
theorem decompress_raw_encapsulate (tbl : List (List Nat)) (l : List Nat) :
    decompress_raw tbl (encapsulate l) = some l := by
  induction l using encapsulate.induct with
  | case1 =>
    rw [encapsulate]
    simp [decompress_raw]
  | case2 x h1 h2 h3 =>
    obtain ⟨c, rfl⟩ := List.length_eq_one.mp h3
    rw [encapsulate]
    simp only [if_neg h1, if_pos h2, if_pos h3]
    rw [decompress_raw_cons]
    simp [decompress_raw]
  | case3 x h1 h2 h3 =>
    have hx1 : 1 ≤ x.length := List.length_pos.mpr h1
    rw [encapsulate]
    simp only [if_neg h1, if_pos h2, if_neg h3]
    rw [decompress_raw_cons]
    have e1 : x.length - 1 + 1 = x.length := Nat.sub_add_cancel hx1
    simp only [e1]
    have hlen : ¬ x.length < x.length := Nat.lt_irrefl _
    simp [hlen, List.take_length, List.drop_length, decompress_raw]
  | case4 x h1 h2 ih =>
    rw [encapsulate]
    simp only [if_neg h1, if_neg h2]
    have htk : (x.take 255).length = 255 := by
      simp only [List.length_take]
      omega
    have hcons : (255 :: 254 :: x.take 255) ++ encapsulate (x.drop 255)
        = 255 :: 254 :: (x.take 255 ++ encapsulate (x.drop 255)) := by
      simp
    rw [hcons, decompress_raw_cons]
    have hlen : ¬ (x.take 255 ++ encapsulate (x.drop 255)).length < 254 + 1 := by
      simp only [List.length_append, htk]
      omega
    simp only [hlen]
    rw [List.take_left' htk, List.drop_left' htk, ih]
    simp [List.take_append_drop]

/-- Appending to a cleanly decodable stream decodes compositionally. -/
theorem decompress_raw_append (tbl : List (List Nat)) :
    ∀ n s1, s1.length ≤ n → ∀ o1, decompress_raw tbl s1 = some o1 → ∀ s2,
      decompress_raw tbl (s1 ++ s2) = (decompress_raw tbl s2).map (fun o => o1 ++ o) := by
  intro n
  induction n with
  | zero =>
    intro s1 hn o1 h s2
    have : s1 = [] := List.length_eq_zero.mp (by omega)
    subst this
    rw [decompress_raw] at h
    simp only [Option.some.injEq] at h
    subst h
    simp
  | succ m ih =>
    intro s1 hn o1 h s2
    match s1 with
    | [] =>
      rw [decompress_raw] at h
      simp only [Option.some.injEq] at h
      subst h
      simp
    | ch :: rest =>
      by_cases hch : ch < 254
      · rw [decompress_raw_cons, if_pos hch] at h
        rw [List.cons_append, decompress_raw_cons, if_pos hch]
        rcases he : tbl[ch]? with _ | entry
        · rw [he] at h
          simp at h
        · rw [he] at h
          simp only [Option.some_bind] at h ⊢
          rcases hr : decompress_raw tbl rest with _ | out
          · rw [hr] at h
            simp at h
          · rw [hr] at h
            simp only [Option.some_bind, Option.some.injEq] at h
            subst h
            rw [ih rest (by simp at hn; omega) out hr s2]
            rcases decompress_raw tbl s2 with _ | o2 <;> simp
      · match rest with
        | [] =>
          rw [decompress_raw_cons, if_neg hch] at h
          simp at h
        | nb :: rest2 =>
          rw [decompress_raw_cons2 tbl ch nb rest2 hch] at h
          rw [List.cons_append, List.cons_append,
              decompress_raw_cons2 tbl ch nb (rest2 ++ s2) hch]
          by_cases h254 : ch = 254
          · rw [if_pos h254] at h ⊢
            rcases hr : decompress_raw tbl rest2 with _ | out
            · rw [hr] at h
              simp at h
            · rw [hr] at h
              simp only [Option.some_bind, Option.some.injEq] at h
              subst h
              rw [ih rest2 (by simp at hn; omega) out hr s2]
              rcases decompress_raw tbl s2 with _ | o2 <;> simp
          · rw [if_neg h254] at h ⊢
            by_cases hlen : rest2.length < nb + 1
            · rw [if_pos hlen] at h
              simp at h
            · rw [if_neg hlen] at h
              have hlen2 : ¬ (rest2 ++ s2).length < nb + 1 := by
                simp only [List.length_append]
                omega
              rw [if_neg hlen2]
              rw [List.take_append_of_le_length (by omega),
                  List.drop_append_of_le_length (by omega)]
              rcases hr : decompress_raw tbl (rest2.drop (nb + 1)) with _ | out
              · rw [hr] at h
                simp at h
              · rw [hr] at h
                simp only [Option.some_bind, Option.some.injEq] at h
                subst h
                have hlen3 : (rest2.drop (nb + 1)).length ≤ m := by
                  simp only [List.length_drop]
                  simp at hn
                  omega
                rw [ih _ hlen3 out hr s2]
                rcases decompress_raw tbl s2 with _ | o2 <;> simp

/-- Two cleanly decodable streams concatenate to a cleanly decodable
stream with concatenated output. -/
theorem decompress_raw_append2 (tbl : List (List Nat)) (s1 s2 o1 o2 : List Nat)
    (h1 : decompress_raw tbl s1 = some o1) (h2 : decompress_raw tbl s2 = some o2) :
    decompress_raw tbl (s1 ++ s2) = some (o1 ++ o2) := by
  rw [decompress_raw_append tbl s1.length s1 le_rfl o1 h1 s2, h2]
  rfl

/-- A dictionary code that is in range decodes to its table entry. -/
theorem decompress_raw_single (tbl : List (List Nat)) (c : Nat) (e : List Nat)
    (hc : c < 254) (he : tbl[c]? = some e) :
    decompress_raw tbl [c] = some e := by
  rw [decompress_raw_cons, if_pos hc, he]
  simp [decompress_raw]

/-! ## Trie lemmas -/

theorem lookupP_cons (t : PTrie) (c : Nat) (cs : List Nat) :
    lookupP t (c :: cs) =
      match t.entries.getD c none with
      | none => none
      | some (term, children) =>
        match cs with
        | [] => term
        | _ :: _ => lookupP children cs := by
  cases cs <;> rfl

theorem lookupT_cons (t : Trie) (c : Nat) (cs : List Nat) :
    lookupT t (c :: cs) =
      match t.entries.getD c none with
      | none => none
      | some (term, children) =>
        match cs with
        | [] => term
        | _ :: _ =>
          match children with
          | none => none
          | some t2 => lookupT t2 cs := by
  cases cs <;> rfl

/-- An all-`None` slot list yields no entry at any index. -/
theorem getD_of_all_isNone {es : List (Option α)} (h : es.all Option.isNone = true)
    (c : Nat) : es.getD c none = none := by
  rw [List.getD_eq_getElem?_getD]
  rcases he : es[c]? with _ | e
  · rfl
  · have hm : e ∈ es := List.getElem?_mem he
    have := List.all_eq_true.mp h e hm
    cases e
    · rfl
    · simp at this

theorem lookupP_emptyP (p : List Nat) : lookupP emptyP p = none := by
  cases p with
  | nil => rfl
  | cons c cs =>
    rw [lookupP_cons]
    have : (emptyP.entries).getD c none = none := by
      apply getD_of_all_isNone
      show (List.replicate 256 (none : Option (Option Nat × PTrie))).all Option.isNone = true
      rw [List.all_eq_true]
      intro e he
      rw [List.eq_of_mem_replicate he]
      rfl
    rw [this]

/-- Looking up a non-empty path in an `empty_node` trie yields nothing. -/
theorem lookupP_isEmptyNode {t : PTrie} (h : isEmptyNode t = true) (c : Nat)
    (cs : List Nat) : lookupP t (c :: cs) = none := by
  rw [lookupP_cons]
  unfold isEmptyNode at h
  simp only [Bool.and_eq_true] at h
  rw [getD_of_all_isNone h.2]

/-- The action of the post-pass on a single slot. -/
def pruneE : Option (Option Nat × PTrie) → Option (Option Nat × Option Trie)
  | none => none
  | some (term, child) =>
    if isEmptyNode child then some (term, none)
    else some (term, some (pruneP child))

/-- The post-pass maps `pruneE` over every slot of a node. -/
theorem pruneP_node (es : List (Option (Option Nat × PTrie))) :
    pruneP (PTrie.node es) = Trie.node (es.map pruneE) := by
  rw [pruneP]
  show Trie.node (es.attach.map _) = _
  congr 1
  have h1 : ∀ x : {e // e ∈ es},
      (match x with
       | ⟨none, _⟩ => (none : Option (Option Nat × Option Trie))
       | ⟨some (term, child), _⟩ =>
         if isEmptyNode child then some (term, none)
         else some (term, some (pruneP child))) = pruneE x.val := by
    rintro ⟨e, he⟩
    rcases e with _ | ⟨term, child⟩
    · rfl
    · simp [pruneE]
  rw [List.map_congr_left fun a _ => h1 a]
  exact List.attach_map_coe es pruneE

/-- One-step unfolding of the post-pass at a given slot. -/
theorem pruneP_entry (es : List (Option (Option Nat × PTrie))) (c : Nat) :
    (pruneP (PTrie.node es)).entries.getD c none = pruneE (es.getD c none) := by
  rw [pruneP_node]
  show (es.map pruneE).getD c none = _
  rw [List.getD_eq_getElem?_getD, List.getD_eq_getElem?_getD, List.getElem?_map]
  rcases es[c]? with _ | e
  · rfl
  · rfl

/-- The post-pass does not change the terminal found along any path. -/
theorem lookupT_pruneP (p : List Nat) : ∀ t : PTrie, lookupT (pruneP t) p = lookupP t p := by
  induction p with
  | nil => intro t; rfl
  | cons c cs ih =>
    intro t
    rcases t with ⟨es⟩
    rw [lookupT_cons, lookupP_cons, pruneP_entry]
    simp only [PTrie.entries]
    rcases hse : es.getD c none with _ | ⟨term, child⟩
    · simp [pruneE]
    · cases cs with
      | nil =>
        by_cases hemp : isEmptyNode child = true <;> simp [pruneE, hemp]
      | cons d ds =>
        by_cases hemp : isEmptyNode child = true
        · simp [pruneE, hemp, lookupP_isEmptyNode hemp]
        · simp [pruneE, hemp, ih child]

theorem lookupP_nil (t : PTrie) : lookupP t [] = none := rfl

theorem lookupT_nil (t : Trie) : lookupT t [] = none := rfl

theorem entries_node (es : List (Option (Option Nat × PTrie))) :
    (PTrie.node es).entries = es := rfl

theorem getD_set_eq {α : Type} (es : List α) (c : Nat) (x a : α) (h : c < es.length) :
    (es.set c x).getD c a = x := by
  rw [List.getD_eq_getElem?_getD, List.getElem?_set_self h]
  rfl

theorem getD_set_ne {α : Type} (es : List α) {c d : Nat} (x a : α) (h : d ≠ c) :
    (es.set c x).getD d a = es.getD d a := by
  rw [List.getD_eq_getElem?_getD, List.getElem?_set_ne (fun hx => h hx.symm),
      List.getD_eq_getElem?_getD]

theorem wfP_node_iff (es : List (Option (Option Nat × PTrie))) :
    wfP (.node es) = true ↔
      es.length = 256 ∧
        ∀ e ∈ es, ∀ term child, e = some (term, child) → wfP child = true := by
  rw [wfP]
  simp only [PTrie.entries, Bool.and_eq_true, decide_eq_true_eq, List.all_eq_true]
  constructor
  · rintro ⟨hlen, hall⟩
    refine ⟨hlen, ?_⟩
    intro e he term child hec
    have := hall ⟨e, he⟩ (List.mem_attach es ⟨e, he⟩)
    subst hec
    exact this
  · rintro ⟨hlen, hall⟩
    refine ⟨hlen, ?_⟩
    rintro ⟨e, he⟩ _
    rcases e with _ | ⟨term, child⟩
    · rfl
    · exact hall _ he term child rfl

theorem wfP_length {t : PTrie} (h : wfP t = true) : t.entries.length = 256 := by
  rcases t with ⟨es⟩
  exact ((wfP_node_iff es).mp h).1

theorem wfP_child {t : PTrie} (h : wfP t = true) {c : Nat} {term : Option Nat}
    {child : PTrie} (he : t.entries.getD c none = some (term, child)) :
    wfP child = true := by
  rcases t with ⟨es⟩
  rw [entries_node, List.getD_eq_getElem?_getD] at he
  rcases hge : es[c]? with _ | e
  · rw [hge] at he
    simp at he
  · rw [hge] at he
    simp only [Option.getD_some] at he
    exact ((wfP_node_iff es).mp h).2 e (List.getElem?_mem hge) term child he

theorem wfP_emptyP : wfP emptyP = true := by
  rw [emptyP, wfP_node_iff]
  refine ⟨List.length_replicate 256 none, ?_⟩
  intro e he term child hec
  rw [List.eq_of_mem_replicate he] at hec
  exact absurd hec (by simp)

/-- After a successful insertion of a non-empty string, its path holds the
inserted code. -/
theorem insert_str_lookup_self (code : Nat) :
    ∀ p t t', insert_str code t p = .ok t' → p ≠ [] →
      lookupP t' p = some code := by
  intro p
  induction p with
  | nil => intro t t' _ hne; exact absurd rfl hne
  | cons c cs ih =>
    intro t t' h _
    rcases t with ⟨es⟩
    rw [insert_str] at h
    by_cases hcl : es.length ≤ c
    · rw [if_pos hcl] at h
      simp at h
    · rw [if_neg hcl] at h
      have hclt : c < es.length := by omega
      rcases hse : es.getD c none with _ | ⟨term, children⟩ <;> rw [hse] at h <;> simp only at h
      · by_cases hcs : cs = []
        · rw [if_pos hcs] at h
          simp only [Except.ok.injEq] at h
          subst h
          subst hcs
          rw [lookupP_cons, entries_node, getD_set_eq es c _ none hclt]
        · rw [if_neg hcs] at h
          rcases hins : insert_str code emptyP cs with e | child <;> rw [hins] at h <;>
            simp only at h
          · simp at h
          · simp only [Except.ok.injEq] at h
            subst h
            obtain ⟨e0, es0, rfl⟩ := List.exists_cons_of_ne_nil hcs
            rw [lookupP_cons, entries_node, getD_set_eq es c _ none hclt]
            exact ih emptyP child hins (by simp)
      · by_cases hcs : cs = []
        · rw [if_pos hcs] at h
          rcases term with _ | tv <;> simp only at h
          · simp only [Except.ok.injEq] at h
            subst h
            subst hcs
            rw [lookupP_cons, entries_node, getD_set_eq es c _ none hclt]
          · simp at h
        · rw [if_neg hcs] at h
          rcases hins : insert_str code children cs with e | child <;> rw [hins] at h <;>
            simp only at h
          · simp at h
          · simp only [Except.ok.injEq] at h
            subst h
            obtain ⟨e0, es0, rfl⟩ := List.exists_cons_of_ne_nil hcs
            rw [lookupP_cons, entries_node, getD_set_eq es c _ none hclt]
            exact ih children child hins (by simp)

/-- A successful insertion leaves every other path's lookup unchanged. -/
theorem insert_str_lookup_other (code : Nat) :
    ∀ p t t', insert_str code t p = .ok t' → ∀ q, q ≠ p →
      lookupP t' q = lookupP t q := by
  intro p
  induction p with
  | nil =>
    intro t t' h q _
    rw [insert_str] at h
    simp only [Except.ok.injEq] at h
    subst h
    rfl
  | cons c cs ih =>
    intro t t' h q hqp
    rcases t with ⟨es⟩
    rw [insert_str] at h
    by_cases hcl : es.length ≤ c
    · rw [if_pos hcl] at h
      simp at h
    · rw [if_neg hcl] at h
      have hclt : c < es.length := by omega
      rcases q with _ | ⟨d, ds⟩
      · rw [lookupP_nil]
        rcases hse : es.getD c none with _ | ⟨term, children⟩ <;> rw [hse] at h <;>
          simp only at h
        · by_cases hcs : cs = []
          · rw [if_pos hcs] at h
            simp only [Except.ok.injEq] at h
            subst h
            rfl
          · rw [if_neg hcs] at h
            rcases hins : insert_str code emptyP cs with e | child <;> rw [hins] at h <;>
              simp only at h
            · simp at h
            · simp only [Except.ok.injEq] at h
              subst h
              rfl
        · by_cases hcs : cs = []
          · rw [if_pos hcs] at h
            rcases term with _ | tv <;> simp only at h
            · simp only [Except.ok.injEq] at h
              subst h
              rfl
            · simp at h
          · rw [if_neg hcs] at h
            rcases hins : insert_str code children cs with e | child <;> rw [hins] at h <;>
              simp only at h
            · simp at h
            · simp only [Except.ok.injEq] at h
              subst h
              rfl
      · rcases hse : es.getD c none with _ | ⟨term, children⟩ <;> rw [hse] at h <;>
          simp only at h
        · -- slot was empty
          by_cases hcs : cs = []
          · rw [if_pos hcs] at h
            simp only [Except.ok.injEq] at h
            subst h
            subst hcs
            by_cases hdc : d = c
            · subst hdc
              rcases ds with _ | ⟨e0, ds0⟩
              · exact absurd rfl hqp
              · rw [lookupP_cons, lookupP_cons, entries_node, entries_node,
                    getD_set_eq es d _ none hclt, hse]
                simp [lookupP_emptyP]
            · rw [lookupP_cons, lookupP_cons, entries_node, entries_node,
                  getD_set_ne es _ none hdc]
          · rw [if_neg hcs] at h
            rcases hins : insert_str code emptyP cs with e | child <;> rw [hins] at h <;>
              simp only at h
            · simp at h
            · simp only [Except.ok.injEq] at h
              subst h
              by_cases hdc : d = c
              · subst hdc
                rcases ds with _ | ⟨e0, ds0⟩
                · rw [lookupP_cons, lookupP_cons, entries_node, entries_node,
                      getD_set_eq es d _ none hclt, hse]
                · have hds : (e0 :: ds0) ≠ cs := fun hx => hqp (by rw [hx])
                  rw [lookupP_cons, lookupP_cons, entries_node, entries_node,
                      getD_set_eq es d _ none hclt, hse]
                  simp [ih emptyP child hins (e0 :: ds0) hds, lookupP_emptyP]
              · rw [lookupP_cons, lookupP_cons, entries_node, entries_node,
                    getD_set_ne es _ none hdc]
        · -- slot already has a node
          by_cases hcs : cs = []
          · rw [if_pos hcs] at h
            rcases term with _ | tv <;> simp only at h
            · simp only [Except.ok.injEq] at h
              subst h
              subst hcs
              by_cases hdc : d = c
              · subst hdc
                rcases ds with _ | ⟨e0, ds0⟩
                · exact absurd rfl hqp
                · rw [lookupP_cons, lookupP_cons, entries_node, entries_node,
                      getD_set_eq es d _ none hclt, hse]
              · rw [lookupP_cons, lookupP_cons, entries_node, entries_node,
                    getD_set_ne es _ none hdc]
            · simp at h
          · rw [if_neg hcs] at h
            rcases hins : insert_str code children cs with e | child <;> rw [hins] at h <;>
              simp only at h
            · simp at h
            · simp only [Except.ok.injEq] at h
              subst h
              by_cases hdc : d = c
              · subst hdc
                rcases ds with _ | ⟨e0, ds0⟩
                · rw [lookupP_cons, lookupP_cons, entries_node, entries_node,
                      getD_set_eq es d _ none hclt, hse]
                · have hds : (e0 :: ds0) ≠ cs := fun hx => hqp (by rw [hx])
                  rw [lookupP_cons, lookupP_cons, entries_node, entries_node,
                      getD_set_eq es d _ none hclt, hse]
                  simp [ih children child hins (e0 :: ds0) hds]
              · rw [lookupP_cons, lookupP_cons, entries_node, entries_node,
                    getD_set_ne es _ none hdc]

/-- A successful insertion preserves trie well-formedness. -/
theorem insert_str_wf (code : Nat) :
    ∀ p t t', insert_str code t p = .ok t' → wfP t = true → wfP t' = true := by
  intro p
  induction p with
  | nil =>
    intro t t' h hw
    rw [insert_str] at h
    simp only [Except.ok.injEq] at h
    subst h
    exact hw
  | cons c cs ih =>
    intro t t' h hw
    rcases t with ⟨es⟩
    rw [insert_str] at h
    by_cases hcl : es.length ≤ c
    · rw [if_pos hcl] at h
      simp at h
    · rw [if_neg hcl] at h
      have hspec := (wfP_node_iff es).mp hw
      have hset : ∀ x child0, wfP child0 = true →
          wfP (.node (es.set c (some (x, child0)))) = true := by
        intro x child0 hch
        rw [wfP_node_iff]
        refine ⟨by rw [List.length_set]; exact hspec.1, ?_⟩
        intro e he term child hec
        rcases List.mem_or_eq_of_mem_set he with hmem | hrep
        · exact hspec.2 e hmem term child hec
        · rw [hrep] at hec
          injection hec with hec2
          injection hec2 with _ hc2
          rw [← hc2]
          exact hch
      rcases hse : es.getD c none with _ | ⟨term, children⟩ <;> rw [hse] at h <;>
        simp only at h
      · by_cases hcs : cs = []
        · rw [if_pos hcs] at h
          simp only [Except.ok.injEq] at h
          subst h
          exact hset _ _ wfP_emptyP
        · rw [if_neg hcs] at h
          rcases hins : insert_str code emptyP cs with e | child <;> rw [hins] at h <;>
            simp only at h
          · simp at h
          · simp only [Except.ok.injEq] at h
            subst h
            exact hset _ _ (ih emptyP child hins wfP_emptyP)
      · have hwc : wfP children = true := wfP_child hw (by rw [entries_node]; exact hse)
        by_cases hcs : cs = []
        · rw [if_pos hcs] at h
          rcases term with _ | tv <;> simp only at h
          · simp only [Except.ok.injEq] at h
            subst h
            exact hset _ _ hwc
          · simp at h
        · rw [if_neg hcs] at h
          rcases hins : insert_str code children cs with e | child <;> rw [hins] at h <;>
            simp only at h
          · simp at h
          · simp only [Except.ok.injEq] at h
            subst h
            exact hset _ _ (ih children child hins hwc)

/-- An insertion succeeds exactly when the string is empty or its path is
not yet terminal (given a well-formed trie and byte characters). -/
theorem insert_str_ok_iff (code : Nat) :
    ∀ p t, wfP t = true → (∀ c ∈ p, c < 256) →
      ((∃ t', insert_str code t p = .ok t') ↔ (p = [] ∨ lookupP t p = none)) := by
  intro p
  induction p with
  | nil =>
    intro t _ _
    constructor
    · intro _
      exact Or.inl rfl
    · intro _
      exact ⟨t, by rw [insert_str]⟩
  | cons c cs ih =>
    intro t hw hb
    rcases t with ⟨es⟩
    have hc : c < 256 := hb c (by simp)
    have hcb : ∀ x ∈ cs, x < 256 := fun x hx => hb x (by simp [hx])
    have hlen : es.length = 256 := ((wfP_node_iff es).mp hw).1
    have hcl : ¬ es.length ≤ c := by omega
    rw [insert_str]
    simp only [if_neg hcl]
    rcases hse : es.getD c none with _ | ⟨term, children⟩
    · simp only
      by_cases hcs : cs = []
      · simp only [if_pos hcs]
        constructor
        · intro _
          subst hcs
          refine Or.inr ?_
          rw [lookupP_cons, entries_node, hse]
        · intro _
          exact ⟨_, rfl⟩
      · simp only [if_neg hcs]
        have hsub := ih emptyP wfP_emptyP hcb
        constructor
        · intro _
          refine Or.inr ?_
          obtain ⟨e0, es0, rfl⟩ := List.exists_cons_of_ne_nil hcs
          rw [lookupP_cons, entries_node, hse]
        · intro _
          have : cs = [] ∨ lookupP emptyP cs = none := Or.inr (lookupP_emptyP cs)
          obtain ⟨t2, ht2⟩ := hsub.mpr this
          exact ⟨_, by rw [ht2]⟩
    · have hwc : wfP children = true := wfP_child hw (by rw [entries_node]; exact hse)
      simp only
      by_cases hcs : cs = []
      · simp only [if_pos hcs]
        subst hcs
        constructor
        · rintro ⟨t2, ht2⟩
          rcases term with _ | tv
          · refine Or.inr ?_
            rw [lookupP_cons, entries_node, hse]
          · simp at ht2
        · rintro (hx | hx)
          · simp at hx
          · rw [lookupP_cons, entries_node, hse] at hx
            simp only at hx
            subst hx
            exact ⟨_, rfl⟩
      · simp only [if_neg hcs]
        have hsub := ih children hwc hcb
        obtain ⟨e0, es0, rfl⟩ := List.exists_cons_of_ne_nil hcs
        have hlk : lookupP (PTrie.node es) (c :: e0 :: es0) = lookupP children (e0 :: es0) := by
          rw [lookupP_cons, entries_node, hse]
        constructor
        · rintro ⟨t2, ht2⟩
          rcases hins : insert_str code children (e0 :: es0) with e | child <;>
            rw [hins] at ht2
          · simp at ht2
          · refine Or.inr ?_
            rw [hlk]
            rcases hsub.mp ⟨child, hins⟩ with hx | hx
            · simp at hx
            · exact hx
        · rintro (hx | hx)
          · simp at hx
          · rw [hlk] at hx
            obtain ⟨t2, ht2⟩ := hsub.mpr (Or.inr hx)
            exact ⟨_, by rw [ht2]⟩

/-- The insertion loop of `make_trie`, specified: on success the trie's
terminals are exactly the non-empty table entries keyed by their codes; on
failure the table holds a duplicated non-empty entry. -/
theorem insert_all_spec (tbl : List (List Nat)) (hb : ∀ s ∈ tbl, ∀ c ∈ s, c < 256) :
    ∀ rest k t, rest = tbl.drop k → wfP t = true →
      (∀ p v, lookupP t p = some v ↔ (v < k ∧ tbl[v]? = some p ∧ p ≠ [])) →
      (match insert_all k t rest with
       | .ok t2 => wfP t2 = true ∧
           ∀ p v, lookupP t2 p = some v ↔ (tbl[v]? = some p ∧ p ≠ [])
       | .error _ => ∃ i j : Nat, ∃ p : List Nat,
           i < j ∧ tbl[i]? = some p ∧ tbl[j]? = some p ∧ p ≠ []) := by
  intro rest
  induction rest with
  | nil =>
    intro k t hdrop hw hinv
    rw [insert_all]
    refine ⟨hw, ?_⟩
    intro p v
    rw [hinv p v]
    constructor
    · rintro ⟨_, h2, h3⟩
      exact ⟨h2, h3⟩
    · rintro ⟨h2, h3⟩
      have hlen : tbl.length ≤ k := List.drop_eq_nil_iff.mp hdrop.symm
      have hv : v < tbl.length := by
        by_contra hx
        rw [List.getElem?_eq_none (by omega)] at h2
        exact absurd h2 (by simp)
      exact ⟨by omega, h2, h3⟩
  | cons s rest2 ih =>
    intro k t hdrop hw hinv
    have hks : tbl[k]? = some s := by
      have := List.getElem?_drop tbl k 0
      rw [← hdrop] at this
      simpa using this.symm
    have hdrop2 : rest2 = tbl.drop (k + 1) := by
      have h2 : (tbl.drop k).drop 1 = tbl.drop (k + 1) := by rw [List.drop_drop]
      rw [← hdrop] at h2
      simpa using h2
    have hsmem : s ∈ tbl := by
      have := List.getElem?_mem hks
      exact this
    have hsb : ∀ c ∈ s, c < 256 := hb s hsmem
    rw [insert_all]
    rcases hins : insert_str k t s with e | t2
    · -- the insertion failed: the path of `s` is already terminal
      simp only
      have hok := (insert_str_ok_iff k s t hw hsb).mpr
      by_cases hse : s = []
      · exfalso
        obtain ⟨t2, ht2⟩ := hok (Or.inl hse)
        rw [hins] at ht2
        exact absurd ht2 (by simp)
      · rcases hlk : lookupP t s with _ | v
        · exfalso
          obtain ⟨t2, ht2⟩ := hok (Or.inr hlk)
          rw [hins] at ht2
          exact absurd ht2 (by simp)
        · obtain ⟨hvk, hvp, _⟩ := (hinv s v).mp hlk
          exact ⟨v, k, s, hvk, hvp, hks, hse⟩
    · -- the insertion succeeded: update the invariant and recurse
      simp only
      have hw2 : wfP t2 = true := insert_str_wf k s t t2 hins hw
      have hinv2 : ∀ p v, lookupP t2 p = some v ↔
          (v < k + 1 ∧ tbl[v]? = some p ∧ p ≠ []) := by
        intro p v
        by_cases hps : p = s ∧ s ≠ []
        · obtain ⟨rfl, hsne⟩ := hps
          rw [insert_str_lookup_self k p t t2 hins hsne]
          constructor
          · intro hx
            simp only [Option.some.injEq] at hx
            subst hx
            exact ⟨by omega, hks, hsne⟩
          · rintro ⟨hv1, hv2, _⟩
            rcases Nat.lt_or_ge v k with hvk | hvk
            · exfalso
              have : lookupP t p = some v := (hinv p v).mpr ⟨hvk, hv2, hsne⟩
              obtain (hx | hx) := (insert_str_ok_iff k p t hw hsb).mp ⟨t2, hins⟩
              · exact hsne hx
              · rw [this] at hx
                exact absurd hx (by simp)
            · have : v = k := by omega
              subst this
              rfl
        · have hother : lookupP t2 p = lookupP t p := by
            by_cases hpse : p = s
            · subst hpse
              have hse : p = [] := by
                by_cases hx : p = []
                · exact hx
                · exact absurd ⟨rfl, hx⟩ hps
              subst hse
              rw [lookupP_nil, lookupP_nil]
            · exact insert_str_lookup_other k s t t2 hins p hpse
          rw [hother, hinv p v]
          constructor
          · rintro ⟨h1, h2, h3⟩
            exact ⟨by omega, h2, h3⟩
          · rintro ⟨h1, h2, h3⟩
            refine ⟨?_, h2, h3⟩
            rcases Nat.lt_or_ge v k with hvk | hvk
            · exact hvk
            · exfalso
              have : v = k := by omega
              subst this
              rw [hks] at h2
              simp only [Option.some.injEq] at h2
              exact hps ⟨h2.symm, by intro hx; rw [hx] at h2; exact h3 h2.symm⟩
      exact ih (k + 1) t2 hdrop2 hw2 hinv2

/-- `make_trie`, specified: it succeeds exactly on a non-empty table of at
most 254 entries without duplicated non-empty entries, and then its trie's
terminals are exactly the non-empty entries keyed by their codes. -/
theorem make_trie_spec (tbl : List (List Nat)) (hb : ∀ s ∈ tbl, ∀ c ∈ s, c < 256) :
    match make_trie tbl with
    | .ok t => tbl ≠ [] ∧ tbl.length ≤ 254 ∧
        (∀ i j : Nat, ∀ p : List Nat,
          i < j → tbl[i]? = some p → tbl[j]? = some p → p = []) ∧
        ∀ p c, lookupT t p = some c ↔ (tbl[c]? = some p ∧ p ≠ [])
    | .error _ => tbl = [] ∨ 254 < tbl.length ∨
        ∃ i j : Nat, ∃ p : List Nat,
          i < j ∧ tbl[i]? = some p ∧ tbl[j]? = some p ∧ p ≠ [] := by
  rw [make_trie]
  by_cases h1 : tbl = []
  · rw [if_pos h1]
    exact Or.inl h1
  · rw [if_neg h1]
    by_cases h2 : 254 < tbl.length
    · rw [if_pos h2]
      exact Or.inr (Or.inl h2)
    · rw [if_neg h2]
      have hbase : ∀ p v, lookupP emptyP p = some v ↔
          (v < 0 ∧ tbl[v]? = some p ∧ p ≠ []) := by
        intro p v
        rw [lookupP_emptyP]
        simp
      have hspec := insert_all_spec tbl hb tbl 0 emptyP (by simp) wfP_emptyP hbase
      rcases hins : insert_all 0 emptyP tbl with e | tP
      · rw [hins] at hspec
        exact Or.inr (Or.inr hspec)
      · rw [hins] at hspec
        obtain ⟨hw2, hfaith⟩ := hspec
        simp only
        refine ⟨h1, by omega, ?_, ?_⟩
        · intro i j p hij hi hj
          by_contra hpne
          have hli : lookupP tP p = some i := (hfaith p i).mpr ⟨hi, hpne⟩
          have hlj : lookupP tP p = some j := (hfaith p j).mpr ⟨hj, hpne⟩
          rw [hli] at hlj
          simp only [Option.some.injEq] at hlj
          omega
        · intro p c
          rw [lookupT_pruneP p tP]
          exact hfaith p c

/-! ## The default dictionary and its trie -/

set_option maxRecDepth 8000 in
theorem DECODE_bytes : ∀ s ∈ DECODE, ∀ c ∈ s, c < 256 := by decide

set_option maxRecDepth 8000 in
theorem DECODE_length : DECODE.length = 254 := by decide

set_option maxRecDepth 60000 in
theorem DECODE_nodup : DECODE.Nodup := by decide

set_option maxRecDepth 8000 in
theorem DECODE_ne_nil : DECODE ≠ [] := by decide

/-- Elimination form of `make_trie_spec` for a successful build. -/
theorem make_trie_ok_elim (tbl : List (List Nat)) (hb : ∀ s ∈ tbl, ∀ c ∈ s, c < 256)
    (t : Trie) (h : make_trie tbl = .ok t) :
    tbl ≠ [] ∧ tbl.length ≤ 254 ∧
      (∀ i j : Nat, ∀ p : List Nat,
        i < j → tbl[i]? = some p → tbl[j]? = some p → p = []) ∧
      ∀ p c, lookupT t p = some c ↔ (tbl[c]? = some p ∧ p ≠ []) := by
  have hspec := make_trie_spec tbl hb
  rw [h] at hspec
  exact hspec

/-- Elimination form of `make_trie_spec` for a failed build. -/
theorem make_trie_err_elim (tbl : List (List Nat)) (hb : ∀ s ∈ tbl, ∀ c ∈ s, c < 256)
    (e : Unit) (h : make_trie tbl = .error e) :
    tbl = [] ∨ 254 < tbl.length ∨
      ∃ i j : Nat, ∃ p : List Nat,
        i < j ∧ tbl[i]? = some p ∧ tbl[j]? = some p ∧ p ≠ [] := by
  have hspec := make_trie_spec tbl hb
  rw [h] at hspec
  exact hspec

/-- `make_trie` accepts the default dictionary. -/
theorem make_trie_DECODE_ok : ∃ t, make_trie DECODE = .ok t := by
  rcases h : make_trie DECODE with e | t
  · exfalso
    rcases make_trie_err_elim DECODE DECODE_bytes e h with
      h1 | h2 | ⟨i, j, p, hij, hi, hj, _⟩
    · exact absurd h1 DECODE_ne_nil
    · rw [DECODE_length] at h2
      omega
    · have hilen : i < DECODE.length := by
        by_contra hx
        rw [List.getElem?_eq_none (by omega)] at hi
        exact absurd hi (by simp)
      have : i = j := List.getElem?_inj hilen DECODE_nodup (by rw [hi, hj])
      omega
  · exact ⟨t, rfl⟩

/-- The compiled default tree is faithful to the `DECODE` table: a path is
terminal with code `c` exactly when it is the table's entry number `c`. -/
theorem SMAZ_TREE_faithful :
    ∀ p c, lookupT SMAZ_TREE p = some c ↔ (DECODE[c]? = some p ∧ p ≠ []) := by
  obtain ⟨t, h⟩ := make_trie_DECODE_ok
  have hfa := (make_trie_ok_elim DECODE DECODE_bytes t h).2.2.2
  have hst : SMAZ_TREE = t := by
    rw [SMAZ_TREE, h]
    rfl
  rw [hst]
  exact hfa

/-! ## Slice helpers

Throughout, the substring `s[a:b]` of Python is `(s.take b).drop a`. -/

theorem slice_self (s : List Nat) (a : Nat) : (s.take a).drop a = [] := by
  apply List.drop_eq_nil_iff.mpr
  simp only [List.length_take]
  omega

theorem take_add_slice (s : List Nat) (a b : Nat) (hab : a ≤ b) :
    s.take a ++ (s.take b).drop a = s.take b := by
  have h1 : (s.take b).take a = s.take a := by
    rw [List.take_take]
    congr 1
    omega
  conv_lhs => rw [← h1]
  exact List.take_append_drop a (s.take b)

theorem slice_glue (s : List Nat) (a b c : Nat) (hab : a ≤ b) (hbc : b ≤ c)
    (hbl : b ≤ s.length) :
    (s.take b).drop a ++ (s.take c).drop b = (s.take c).drop a := by
  have h1 : s.take c = s.take b ++ (s.take c).drop b := (take_add_slice s b c hbc).symm
  conv_rhs => rw [h1]
  rw [List.drop_append_of_le_length]
  simp only [List.length_take]
  omega

theorem slice_snoc (s : List Nat) (a p : Nat) (hap : a ≤ p) (hp : p < s.length) :
    (s.take p).drop a ++ [s.getD p 0] = (s.take (p + 1)).drop a := by
  have h1 : s.take (p + 1) = s.take p ++ [s.getD p 0] := by
    rw [List.take_succ]
    congr 1
    rw [List.getD_eq_getElem?_getD, List.getElem?_eq_getElem hp]
    rfl
  rw [h1, List.drop_append_of_le_length]
  simp only [List.length_take]
  omega

theorem slice_length (s : List Nat) (a b : Nat) (hb : b ≤ s.length) :
    ((s.take b).drop a).length = b - a := by
  simp only [List.length_drop, List.length_take]
  omega

/-! ## The longest-match search -/

/-- Following child pointers through a whole path (the walk that
`search_loop`'s `tree_ptr` performs). -/
def descendT : Trie → List Nat → Option Trie
  | t, [] => some t
  | t, c :: cs =>
    match t.entries.getD c none with
    | none => none
    | some (_, children) =>
      match children with
      | none => none
      | some t2 => descendT t2 cs

theorem descendT_lookup :
    ∀ (p : List Nat) (t tp : Trie), descendT t p = some tp → ∀ q, q ≠ [] →
      lookupT t (p ++ q) = lookupT tp q := by
  intro p
  induction p with
  | nil =>
    intro t tp h q _
    rw [descendT] at h
    simp only [Option.some.injEq] at h
    subst h
    rfl
  | cons c cs ih =>
    intro t tp h q hq
    rw [descendT] at h
    rcases hse : t.entries.getD c none with _ | ⟨term, children⟩ <;> rw [hse] at h
    · simp at h
    · simp only at h
      rcases children with _ | t2
      · simp at h
      · simp only at h
        obtain ⟨q0, q2, rfl⟩ := List.exists_cons_of_ne_nil hq
        rw [List.cons_append, lookupT_cons, hse]
        have hcq : cs ++ q0 :: q2 ≠ [] := by simp
        obtain ⟨r0, r2, hr⟩ := List.exists_cons_of_ne_nil hcq
        rw [hr]
        simp only
        rw [← hr, ih t2 tp h (q0 :: q2) (by simp)]

theorem descendT_snoc :
    ∀ (p : List Nat) (t tp : Trie), descendT t p = some tp →
      ∀ c term t2, tp.entries.getD c none = some (term, some t2) →
        descendT t (p ++ [c]) = some t2 := by
  intro p
  induction p with
  | nil =>
    intro t tp h c term t2 he
    rw [descendT] at h
    simp only [Option.some.injEq] at h
    subst h
    rw [List.nil_append, descendT, he]
    rfl
  | cons c0 cs ih =>
    intro t tp h c term t2 he
    rw [descendT] at h
    rcases hse : t.entries.getD c0 none with _ | ⟨term0, children⟩ <;> rw [hse] at h
    · simp at h
    · simp only at h
      rcases children with _ | t3
      · simp at h
      · simp only at h
        rw [List.cons_append, descendT, hse]
        simp only
        exact ih t3 tp h c term t2 he

/-- Mid-walk terminal: the terminal stored at the next character of the
current node is the terminal of the extended path. -/
theorem descendT_terminal (p : List Nat) (t tp : Trie) (h : descendT t p = some tp)
    (c : Nat) :
    lookupT t (p ++ [c]) = lookupT tp [c] :=
  descendT_lookup p t tp h [c] (by simp)

/-- Soundness of the inner matching loop: a successful search result is a
positive in-bounds length whose consumed slice is a terminal path of the
tree carrying the returned code. -/
theorem search_loop_sound (s : List Nat) (pos : Nat) (tree : Trie) :
    ∀ n (tp : Trie) (j : Nat) best c L,
      s.length - pos - j ≤ n →
      pos + j ≤ s.length →
      descendT tree ((s.take (pos + j)).drop pos) = some tp →
      (∀ cb Lb, best = some (cb, Lb) →
        0 < Lb ∧ pos + Lb ≤ s.length ∧
          lookupT tree ((s.take (pos + Lb)).drop pos) = some cb) →
      search_loop s pos tp j best = some (c, L) →
      0 < L ∧ pos + L ≤ s.length ∧
        lookupT tree ((s.take (pos + L)).drop pos) = some c := by
  intro n
  induction n with
  | zero =>
    intro tp j best c L hn _ _ hbest h
    rw [search_loop, dif_neg (by omega)] at h
    exact hbest c L h
  | succ m ih =>
    intro tp j best c L hn hjs hdesc hbest h
    rw [search_loop] at h
    by_cases hj : j < s.length - pos
    · rw [dif_pos hj] at h
      simp only at h
      have hsl : (s.take (pos + j)).drop pos ++ [s.getD (pos + j) 0]
          = (s.take (pos + j + 1)).drop pos :=
        slice_snoc s pos (pos + j) (by omega) (by omega)
      have hterm := descendT_terminal _ tree tp hdesc (s.getD (pos + j) 0)
      rw [hsl] at hterm
      have hb2 : ∀ cb Lb,
          (match ((tp.entries.getD (s.getD (pos + j) 0) none).getD (none, none)).1 with
            | some b => some (b, j + 1)
            | none => best) = some (cb, Lb) →
          0 < Lb ∧ pos + Lb ≤ s.length ∧
            lookupT tree ((s.take (pos + Lb)).drop pos) = some cb := by
        intro cb Lb hx
        rcases hpr : ((tp.entries.getD (s.getD (pos + j) 0) none).getD (none, none)).1 with
          _ | b
        · rw [hpr] at hx
          exact hbest cb Lb hx
        · rw [hpr] at hx
          simp only [Option.some.injEq, Prod.mk.injEq] at hx
          obtain ⟨rfl, rfl⟩ := hx
          refine ⟨by omega, by omega, ?_⟩
          have hadd : pos + (j + 1) = pos + j + 1 := by omega
          rw [hadd, hterm, lookupT_cons]
          rcases hse : tp.entries.getD (s.getD (pos + j) 0) none with _ | ⟨term, children⟩
          · rw [hse] at hpr
            simp at hpr
          · rw [hse] at hpr
            simp only [Option.getD_some] at hpr
            exact hpr
      rcases hch : ((tp.entries.getD (s.getD (pos + j) 0) none).getD (none, none)).2 with
        _ | t2
      · rw [hch] at h
        exact hb2 c L h
      · rw [hch] at h
        have hdesc2 : descendT tree ((s.take (pos + j + 1)).drop pos) = some t2 := by
          rw [← hsl]
          rcases hse : tp.entries.getD (s.getD (pos + j) 0) none with _ | ⟨term, children⟩
          · rw [hse] at hch
            simp at hch
          · rw [hse] at hch
            simp only [Option.getD_some] at hch
            subst hch
            exact descendT_snoc _ tree tp hdesc _ term t2 hse
        exact ih t2 (j + 1) _ c L (by omega) (by omega) hdesc2 hb2 h
    · rw [dif_neg hj] at h
      exact hbest c L h

/-- Soundness of a fresh search against a faithful tree: the matched slice
is the dictionary entry of the returned code. -/
theorem search_loop_sound_faithful (tbl : List (List Nat)) (tree : Trie)
    (hf : ∀ p c, lookupT tree p = some c ↔ (tbl[c]? = some p ∧ p ≠ []))
    (s : List Nat) (pos : Nat) (hpos : pos ≤ s.length) (c L : Nat)
    (h : search_loop s pos tree 0 none = some (c, L)) :
    0 < L ∧ pos + L ≤ s.length ∧
      tbl[c]? = some ((s.take (pos + L)).drop pos) := by
  have hds : descendT tree ((s.take (pos + 0)).drop pos) = some tree := by
    rw [Nat.add_zero, slice_self, descendT]
  have hs := search_loop_sound s pos tree (s.length - pos) tree 0 none c L
    (by omega) (by omega) hds (by intro cb Lb hx; exact absurd hx (by simp)) h
  exact ⟨hs.1, hs.2.1, ((hf _ _).mp hs.2.2).1⟩

/-! ## Round trip of the backtracking encoder -/

theorem getElem?_some_lt {α : Type} {l : List α} {c : Nat} {x : α}
    (h : l[c]? = some x) : c < l.length := by
  by_contra hx
  rw [List.getElem?_eq_none (by omega)] at h
  exact absurd h (by simp)

theorem take_snoc (s : List Nat) (p : Nat) (hp : p < s.length) :
    s.take p ++ [s.getD p 0] = s.take (p + 1) := by
  have := slice_snoc s 0 p (by omega) hp
  simpa using this


theorem decompress_raw_nil (tbl : List (List Nat)) :
    decompress_raw tbl [] = some [] := by
  rw [decompress_raw.eq_1]

/-- Unfolding of one `compress_loop` step on an unmatched character
(the `search` miss branch, smaz.py lines 424-462). -/
theorem compress_loop_step_none (tree : Trie) (bt : Bool) (btLimit : Nat)
    (s output unmatched btBuff encBuf : List Nat) (anchor pos : Nat)
    (hp : pos < s.length) (hsr : search_loop s pos tree 0 none = none) :
    compress_loop tree bt btLimit s output unmatched btBuff encBuf anchor pos =
      if 0 < encBuf.length ∨ s.length = pos + 1 then
        if btBuff.length + encBuf.length +
            worst_size (unmatched ++ [s.getD pos 0]).length + 2 <
            worst_size (pos + 1 - anchor) ∨ btLimit < pos + 1 - anchor ∨ bt = false then
          compress_loop tree bt btLimit s (output ++ btBuff ++ encBuf)
            (unmatched ++ [s.getD pos 0]) [] [] (pos + 1 - 1) (pos + 1)
        else if worst_size (pos + 1 - anchor) < btBuff.length + encBuf.length +
            worst_size (unmatched ++ [s.getD pos 0]).length then
          compress_loop tree bt btLimit s output ((s.take (pos + 1)).drop anchor) [] []
            anchor (pos + 1)
        else if s.length = pos + 1 then
          compress_loop tree bt btLimit s output []
            (btBuff ++ encBuf ++ encapsulate_list (unmatched ++ [s.getD pos 0])) []
            anchor (pos + 1)
        else
          compress_loop tree bt btLimit s output (unmatched ++ [s.getD pos 0])
            (btBuff ++ encBuf) [] anchor (pos + 1)
      else
        compress_loop tree bt btLimit s output (unmatched ++ [s.getD pos 0])
          btBuff encBuf anchor (pos + 1) := by
  conv_lhs => rw [compress_loop]
  rw [dif_pos hp, hsr]

/-- Unfolding of one `compress_loop` step on a dictionary match (smaz.py
lines 464-474). -/
theorem compress_loop_step_some (tree : Trie) (bt : Bool) (btLimit : Nat)
    (s output unmatched btBuff encBuf : List Nat) (anchor pos code encLen : Nat)
    (hp : pos < s.length)
    (hsr : search_loop s pos tree 0 none = some (code, encLen)) :
    compress_loop tree bt btLimit s output unmatched btBuff encBuf anchor pos =
      compress_loop tree bt btLimit s output []
        (if unmatched = [] then btBuff else btBuff ++ encapsulate_list unmatched)
        (encBuf ++ [code]) anchor (pos + encLen) := by
  conv_lhs => rw [compress_loop]
  rw [dif_pos hp, hsr]

/-- The final flush of `compress_loop` (smaz.py lines 476-480): once the
whole input has been consumed, the concatenation
`output + btBuff + encapsulated unmatched + encBuf` decodes back to the
input, provided each part decodes to the piece it came from. -/
theorem compress_loop_flush (tbl : List (List Nat)) (tree : Trie) (bt : Bool)
    (btLimit : Nat) (s output unmatched btBuff encBuf : List Nat)
    (anchor pos : Nat) (oO oB oE : List Nat)
    (hpe : ¬ pos < s.length)
    (hnub : encBuf ≠ [] → unmatched = [])
    (hO : decompress_raw tbl output = some oO)
    (hB : decompress_raw tbl btBuff = some oB)
    (hE : decompress_raw tbl encBuf = some oE)
    (hI1 : oO ++ oB ++ oE ++ unmatched = s) :
    decompress_raw tbl
      (compress_loop tree bt btLimit s output unmatched btBuff encBuf anchor pos)
      = some s := by
  rw [compress_loop, dif_neg hpe]
  have hencl : decompress_raw tbl (encapsulate_list unmatched) = some unmatched := by
    rw [encapsulate_list_eq]
    exact decompress_raw_encapsulate tbl unmatched
  have h1 := decompress_raw_append2 tbl output btBuff oO oB hO hB
  have h2 := decompress_raw_append2 tbl (output ++ btBuff) (encapsulate_list unmatched)
    (oO ++ oB) unmatched h1 hencl
  have h3 := decompress_raw_append2 tbl
    (output ++ btBuff ++ encapsulate_list unmatched) encBuf
    (oO ++ oB ++ unmatched) oE h2 hE
  rw [h3]
  by_cases hee : encBuf = []
  · have hoe : oE = [] := by
      rw [hee, decompress_raw_nil] at hE
      exact (Option.some_inj.mp hE).symm
    rw [hoe] at hI1 ⊢
    simp only [List.append_nil] at hI1 ⊢
    rw [hI1]
  · have hue : unmatched = [] := hnub hee
    rw [hue] at hI1 ⊢
    simp only [List.append_nil] at hI1 ⊢
    rw [hI1]

/-- Main loop invariant of `compress`: if the committed output, the
backtrack buffer and the code run decode to the parts of the input they
were produced from, then running the loop to completion and decoding
returns the whole input.  `oO`, `oB`, `oE` are the decodings of the three
byte buffers; `anchor` is the last backtrack position. -/
theorem compress_loop_correct (tbl : List (List Nat)) (tree : Trie)
    (hf : ∀ p c, lookupT tree p = some c ↔ (tbl[c]? = some p ∧ p ≠ []))
    (htbl : tbl.length ≤ 254) (bt : Bool) (btLimit : Nat) (s : List Nat) :
    ∀ n output unmatched btBuff encBuf anchor pos oO oB oE,
      s.length - pos ≤ n →
      pos ≤ s.length →
      unmatched = (s.take pos).drop (pos - unmatched.length) →
      unmatched.length ≤ pos →
      (encBuf ≠ [] → unmatched = []) →
      decompress_raw tbl output = some oO →
      decompress_raw tbl btBuff = some oB →
      decompress_raw tbl encBuf = some oE →
      oO ++ oB ++ oE ++ unmatched = s.take pos →
      (pos < s.length →
        anchor + unmatched.length ≤ pos ∧
        oO = s.take anchor ∧
        oB ++ oE = (s.take (pos - unmatched.length)).drop anchor) →
      decompress_raw tbl
        (compress_loop tree bt btLimit s output unmatched btBuff encBuf anchor pos)
        = some s := by
  intro n
  induction n with
  | zero =>
    intro output unmatched btBuff encBuf anchor pos oO oB oE
    intro hn hpos hunm hul hnub hO hB hE hI1 _
    have hs : s.take pos = s := List.take_of_length_le (by omega)
    refine compress_loop_flush tbl tree bt btLimit s output unmatched btBuff encBuf
      anchor pos oO oB oE (by omega) hnub hO hB hE ?_
    rw [hI1]
    exact hs
  | succ m ih =>
    intro output unmatched btBuff encBuf anchor pos oO oB oE
    intro hn hpos hunm hul hnub hO hB hE hI1 hJ2
    by_cases hp : pos < s.length
    case neg =>
      have hs : s.take pos = s := List.take_of_length_le (by omega)
      refine compress_loop_flush tbl tree bt btLimit s output unmatched btBuff encBuf
        anchor pos oO oB oE hp hnub hO hB hE ?_
      rw [hI1]
      exact hs
    case pos =>
    have hnil : decompress_raw tbl ([] : List Nat) = some [] := decompress_raw_nil tbl
    rcases hsr : search_loop s pos tree 0 none with _ | ⟨code, encLen⟩
    · -- unmatched character at `pos`
      rw [compress_loop_step_none tree bt btLimit s output unmatched btBuff encBuf
        anchor pos hp hsr]
      have hc0 : s.take pos ++ [s.getD pos 0] = s.take (pos + 1) := take_snoc s pos hp
      have hu2len : (unmatched ++ [s.getD pos 0]).length = unmatched.length + 1 := by
        simp
      have hu2slice : unmatched ++ [s.getD pos 0]
          = (s.take (pos + 1)).drop (pos + 1 - (unmatched ++ [s.getD pos 0]).length) := by
        rw [hu2len,
          show pos + 1 - (unmatched.length + 1) = pos - unmatched.length from by omega]
        conv_lhs => rw [hunm]
        exact slice_snoc s (pos - unmatched.length) pos (by omega) hp
      have hI1' : oO ++ oB ++ oE ++ (unmatched ++ [s.getD pos 0]) = s.take (pos + 1) := by
        rw [← List.append_assoc, hI1, hc0]
      by_cases hsw : 0 < encBuf.length ∨ s.length = pos + 1
      · rw [if_pos hsw]
        by_cases hb1 : btBuff.length + encBuf.length +
            worst_size (unmatched ++ [s.getD pos 0]).length + 2 <
            worst_size (pos + 1 - anchor) ∨ btLimit < pos + 1 - anchor ∨ bt = false
        · -- unmerge: commit the backtrack buffer and the code run
          rw [if_pos hb1]
          have h1 := decompress_raw_append2 tbl output btBuff oO oB hO hB
          have h2 := decompress_raw_append2 tbl (output ++ btBuff) encBuf
            (oO ++ oB) oE h1 hE
          refine ih (output ++ btBuff ++ encBuf) (unmatched ++ [s.getD pos 0]) [] []
            (pos + 1 - 1) (pos + 1) (oO ++ oB ++ oE) [] [] (by omega) (by omega)
            hu2slice (by rw [hu2len]; omega) (fun h => absurd rfl h) h2 hnil hnil
            ?_ ?_
          · simpa using hI1'
          · intro hp2
            have hee : 0 < encBuf.length := by
              rcases hsw with hx | hx
              · exact hx
              · omega
            have hue : unmatched = [] := hnub (by
              intro hz
              rw [hz] at hee
              simp at hee)
            have hJ := hJ2 hp
            rw [hue] at hJ
            simp only [List.length_nil, Nat.add_zero, Nat.sub_zero] at hJ
            obtain ⟨hanc, hoO, hBE⟩ := hJ
            have hl1 : (unmatched ++ [s.getD pos 0]).length = 1 := by
              rw [hue]
              rfl
            refine ⟨by rw [hl1]; omega, ?_, ?_⟩
            · rw [show pos + 1 - 1 = pos from rfl, List.append_assoc, hoO, hBE]
              exact take_add_slice s anchor pos hanc
            · rw [hl1, show pos + 1 - 1 = pos from rfl, slice_self]
              rfl
        · rw [if_neg hb1]
          by_cases hb2 : worst_size (pos + 1 - anchor) < btBuff.length + encBuf.length +
              worst_size (unmatched ++ [s.getD pos 0]).length
          · -- merge: reset the unmatched pool back to the anchor
            rw [if_pos hb2]
            obtain ⟨hanc, hoO, hBE⟩ := hJ2 hp
            have hanc2 : anchor ≤ pos + 1 := by omega
            have hUlen : ((s.take (pos + 1)).drop anchor).length = pos + 1 - anchor :=
              slice_length s anchor (pos + 1) (by omega)
            refine ih output ((s.take (pos + 1)).drop anchor) [] [] anchor (pos + 1)
              oO [] [] (by omega) (by omega) ?_ (by rw [hUlen]; omega)
              (fun h => absurd rfl h) hO hnil hnil ?_ ?_
            · rw [hUlen, show pos + 1 - (pos + 1 - anchor) = anchor from by omega]
            · simp only [List.append_nil]
              rw [hoO]
              exact take_add_slice s anchor (pos + 1) hanc2
            · intro hp2
              refine ⟨by rw [hUlen]; omega, hoO, ?_⟩
              rw [hUlen, show pos + 1 - (pos + 1 - anchor) = anchor from by omega,
                slice_self]
              rfl
          · rw [if_neg hb2]
            by_cases hb3 : s.length = pos + 1
            · -- defer at the end of the input
              rw [if_pos hb3]
              have hencl2 : decompress_raw tbl
                  (encapsulate_list (unmatched ++ [s.getD pos 0]))
                  = some (unmatched ++ [s.getD pos 0]) := by
                rw [encapsulate_list_eq]
                exact decompress_raw_encapsulate tbl _
              have h1 := decompress_raw_append2 tbl btBuff encBuf oB oE hB hE
              have h2 := decompress_raw_append2 tbl (btBuff ++ encBuf)
                (encapsulate_list (unmatched ++ [s.getD pos 0])) (oB ++ oE)
                (unmatched ++ [s.getD pos 0]) h1 hencl2
              refine ih output []
                (btBuff ++ encBuf ++ encapsulate_list (unmatched ++ [s.getD pos 0]))
                [] anchor (pos + 1) oO (oB ++ oE ++ (unmatched ++ [s.getD pos 0])) []
                (by omega) (by omega) (by simp [slice_self]) (by simp)
                (fun _ => rfl) hO h2 hnil ?_ ?_
              · simpa using hI1'
              · intro hp2
                exact absurd hp2 (by omega)
            · -- defer: merge the code run into the backtrack buffer
              rw [if_neg hb3]
              have hee : 0 < encBuf.length := by
                rcases hsw with hx | hx
                · exact hx
                · exact absurd hx hb3
              have hue : unmatched = [] := hnub (by
                intro hz
                rw [hz] at hee
                simp at hee)
              have h1 := decompress_raw_append2 tbl btBuff encBuf oB oE hB hE
              refine ih output (unmatched ++ [s.getD pos 0]) (btBuff ++ encBuf) []
                anchor (pos + 1) oO (oB ++ oE) [] (by omega) (by omega) hu2slice
                (by rw [hu2len]; omega) (fun h => absurd rfl h) hO h1 hnil ?_ ?_
              · simpa using hI1'
              · intro hp2
                have hJ := hJ2 hp
                rw [hue] at hJ
                simp only [List.length_nil, Nat.add_zero, Nat.sub_zero] at hJ
                obtain ⟨hanc, hoO, hBE⟩ := hJ
                have hl1 : (unmatched ++ [s.getD pos 0]).length = 1 := by
                  rw [hue]
                  rfl
                refine ⟨by rw [hl1]; omega, hoO, ?_⟩
                rw [hl1, show pos + 1 - 1 = pos from rfl]
                simpa using hBE
      · rw [if_neg hsw]
        push_neg at hsw
        obtain ⟨hee, hne⟩ := hsw
        have heb : encBuf = [] := List.length_eq_zero.mp (by omega)
        refine ih output (unmatched ++ [s.getD pos 0]) btBuff encBuf anchor (pos + 1)
          oO oB oE (by omega) (by omega) hu2slice (by rw [hu2len]; omega)
          (fun h => absurd heb h) hO hB hE hI1' ?_
        intro hp2
        obtain ⟨hanc, hoO, hBE⟩ := hJ2 hp
        refine ⟨by rw [hu2len]; omega, hoO, ?_⟩
        rw [hu2len,
          show pos + 1 - (unmatched.length + 1) = pos - unmatched.length from by omega]
        exact hBE
    · -- dictionary match of length `encLen` at `pos`
      rw [compress_loop_step_some tree bt btLimit s output unmatched btBuff encBuf
        anchor pos code encLen hp hsr]
      obtain ⟨hL, hbound, hcodeTbl⟩ := search_loop_sound_faithful tbl tree hf s pos
        (by omega) code encLen hsr
      have hcode : code < 254 := lt_of_lt_of_le (getElem?_some_lt hcodeTbl) htbl
      have hE' := decompress_raw_append2 tbl encBuf [code] oE
        ((s.take (pos + encLen)).drop pos) hE
        (decompress_raw_single tbl code _ hcode hcodeTbl)
      obtain ⟨hanc, hoO, hBE⟩ := hJ2 hp
      by_cases hue : unmatched = []
      · rw [if_pos hue]
        refine ih output [] btBuff (encBuf ++ [code]) anchor (pos + encLen)
          oO oB (oE ++ (s.take (pos + encLen)).drop pos) (by omega) hbound
          (by simp [slice_self]) (by simp) (fun _ => rfl) hO hB hE' ?_ ?_
        · rw [hue] at hI1
          simp only [List.append_nil] at hI1
          calc oO ++ oB ++ (oE ++ (s.take (pos + encLen)).drop pos) ++ []
              = (oO ++ oB ++ oE) ++ (s.take (pos + encLen)).drop pos := by
                simp [List.append_assoc]
            _ = s.take pos ++ (s.take (pos + encLen)).drop pos := by rw [hI1]
            _ = s.take (pos + encLen) := take_add_slice s pos (pos + encLen) (by omega)
        · intro hp2
          rw [hue] at hanc hBE
          simp only [List.length_nil, Nat.add_zero, Nat.sub_zero] at hanc hBE
          refine ⟨by simp only [List.length_nil, Nat.add_zero]; omega, hoO, ?_⟩
          simp only [List.length_nil, Nat.sub_zero]
          calc oB ++ (oE ++ (s.take (pos + encLen)).drop pos)
              = (oB ++ oE) ++ (s.take (pos + encLen)).drop pos :=
                (List.append_assoc oB oE _).symm
            _ = (s.take pos).drop anchor ++ (s.take (pos + encLen)).drop pos := by
                rw [hBE]
            _ = (s.take (pos + encLen)).drop anchor :=
                slice_glue s anchor pos (pos + encLen) hanc (by omega) (by omega)
      · rw [if_neg hue]
        have heb : encBuf = [] := by
          by_contra hx
          exact hue (hnub hx)
        have hoe : oE = [] := by
          rw [heb, decompress_raw_nil] at hE
          exact (Option.some_inj.mp hE).symm
        have henclu : decompress_raw tbl (encapsulate_list unmatched) = some unmatched := by
          rw [encapsulate_list_eq]
          exact decompress_raw_encapsulate tbl unmatched
        have hB' := decompress_raw_append2 tbl btBuff (encapsulate_list unmatched)
          oB unmatched hB henclu
        refine ih output [] (btBuff ++ encapsulate_list unmatched) (encBuf ++ [code])
          anchor (pos + encLen) oO (oB ++ unmatched)
          (oE ++ (s.take (pos + encLen)).drop pos) (by omega) hbound
          (by simp [slice_self]) (by simp) (fun _ => rfl) hO hB' hE' ?_ ?_
        · rw [hoe] at hI1 ⊢
          simp only [List.append_nil] at hI1
          calc oO ++ (oB ++ unmatched) ++ ([] ++ (s.take (pos + encLen)).drop pos) ++ []
              = (oO ++ oB ++ unmatched) ++ (s.take (pos + encLen)).drop pos := by
                simp [List.append_assoc]
            _ = s.take pos ++ (s.take (pos + encLen)).drop pos := by rw [hI1]
            _ = s.take (pos + encLen) := take_add_slice s pos (pos + encLen) (by omega)
        · intro hp2
          refine ⟨by simp only [List.length_nil, Nat.add_zero]; omega, hoO, ?_⟩
          rw [hoe]
          simp only [List.length_nil, Nat.sub_zero]
          obtain ⟨k, hk⟩ : ∃ k, k = unmatched.length := ⟨unmatched.length, rfl⟩
          have hunm2 : unmatched = (s.take pos).drop (pos - k) := by
            rw [hk]
            exact hunm
          have hBslice : oB = (s.take (pos - k)).drop anchor := by
            rw [hoe] at hBE
            rw [hk]
            simpa using hBE
          have hkle : k ≤ pos := by
            rw [hk]
            exact hul
          have hanck : anchor + k ≤ pos := by
            rw [hk]
            exact hanc
          have hglue : oB ++ unmatched = (s.take pos).drop anchor := by
            rw [hBslice]
            conv_lhs => rw [hunm2]
            exact slice_glue s anchor (pos - k) pos (by omega) (by omega) (by omega)
          calc (oB ++ unmatched) ++ ([] ++ (s.take (pos + encLen)).drop pos)
              = (oB ++ unmatched) ++ (s.take (pos + encLen)).drop pos := by simp
            _ = (s.take pos).drop anchor ++ (s.take (pos + encLen)).drop pos := by
                rw [hglue]
            _ = (s.take (pos + encLen)).drop anchor :=
                slice_glue s anchor pos (pos + encLen) (by omega) (by omega) (by omega)

/-! ## Round trip of the classic encoder -/

/-- Unfolding of one `compress_classic_loop` step on an unmatched
character (smaz.py lines 526-528). -/
theorem compress_classic_loop_step_none (s output unmatched : List Nat) (pos : Nat)
    (hp : pos < s.length) (hsr : search_loop s pos SMAZ_TREE 0 none = none) :
    compress_classic_loop s output unmatched pos =
      compress_classic_loop s output (unmatched ++ [s.getD pos 0]) (pos + 1) := by
  conv_lhs => rw [compress_classic_loop]
  rw [dif_pos hp, hsr]

/-- Unfolding of one `compress_classic_loop` step on a dictionary match
(smaz.py lines 517-524). -/
theorem compress_classic_loop_step_some (s output unmatched : List Nat)
    (pos code encLen : Nat) (hp : pos < s.length)
    (hsr : search_loop s pos SMAZ_TREE 0 none = some (code, encLen)) :
    compress_classic_loop s output unmatched pos =
      compress_classic_loop s
        ((if unmatched = [] then output else output ++ encapsulate_list unmatched) ++ [code])
        [] (pos + encLen) := by
  conv_lhs => rw [compress_classic_loop]
  rw [dif_pos hp, hsr]

/-- The final flush of `compress_classic_loop` (smaz.py lines 540-542). -/
theorem compress_classic_loop_flush (s output unmatched : List Nat) (pos : Nat)
    (oO : List Nat) (hpe : ¬ pos < s.length)
    (hO : decompress_raw DECODE output = some oO)
    (hI : oO ++ unmatched = s) :
    decompress_raw DECODE (compress_classic_loop s output unmatched pos) = some s := by
  rw [compress_classic_loop, dif_neg hpe]
  by_cases hue : unmatched = []
  · rw [if_pos hue, hO]
    rw [hue] at hI
    simp only [List.append_nil] at hI
    rw [hI]
  · rw [if_neg hue]
    have hencl : decompress_raw DECODE (encapsulate_list unmatched) = some unmatched := by
      rw [encapsulate_list_eq]
      exact decompress_raw_encapsulate DECODE unmatched
    rw [decompress_raw_append2 DECODE output (encapsulate_list unmatched)
      oO unmatched hO hencl, hI]

/-- Loop invariant of `compress_classic`: if the output so far decodes to
the committed part of the input and the unmatched pool holds the rest up
to `pos`, running the loop to completion and decoding returns the whole
input. -/
theorem compress_classic_loop_correct (s : List Nat) :
    ∀ n output unmatched pos oO,
      s.length - pos ≤ n →
      pos ≤ s.length →
      decompress_raw DECODE output = some oO →
      oO ++ unmatched = s.take pos →
      decompress_raw DECODE (compress_classic_loop s output unmatched pos) = some s := by
  intro n
  induction n with
  | zero =>
    intro output unmatched pos oO hn hpos hO hI
    have hs : s.take pos = s := List.take_of_length_le (by omega)
    refine compress_classic_loop_flush s output unmatched pos oO (by omega) hO ?_
    rw [hI]
    exact hs
  | succ m ih =>
    intro output unmatched pos oO hn hpos hO hI
    by_cases hp : pos < s.length
    case neg =>
      have hs : s.take pos = s := List.take_of_length_le (by omega)
      refine compress_classic_loop_flush s output unmatched pos oO hp hO ?_
      rw [hI]
      exact hs
    case pos =>
    rcases hsr : search_loop s pos SMAZ_TREE 0 none with _ | ⟨code, encLen⟩
    · rw [compress_classic_loop_step_none s output unmatched pos hp hsr]
      refine ih output (unmatched ++ [s.getD pos 0]) (pos + 1) oO (by omega)
        (by omega) hO ?_
      rw [← List.append_assoc, hI, take_snoc s pos hp]
    · rw [compress_classic_loop_step_some s output unmatched pos code encLen hp hsr]
      obtain ⟨hL, hbound, hcodeTbl⟩ := search_loop_sound_faithful DECODE SMAZ_TREE
        SMAZ_TREE_faithful s pos (by omega) code encLen hsr
      have hcode : code < 254 := by
        have hlt := getElem?_some_lt hcodeTbl
        rw [DECODE_length] at hlt
        exact hlt
      have hone := decompress_raw_single DECODE code _ hcode hcodeTbl
      by_cases hue : unmatched = []
      · rw [if_pos hue]
        have hO2 := decompress_raw_append2 DECODE output [code] oO
          ((s.take (pos + encLen)).drop pos) hO hone
        refine ih (output ++ [code]) [] (pos + encLen)
          (oO ++ (s.take (pos + encLen)).drop pos) (by omega) hbound hO2 ?_
        rw [hue] at hI
        simp only [List.append_nil] at hI ⊢
        rw [hI]
        exact take_add_slice s pos (pos + encLen) (by omega)
      · rw [if_neg hue]
        have hencl : decompress_raw DECODE (encapsulate_list unmatched)
            = some unmatched := by
          rw [encapsulate_list_eq]
          exact decompress_raw_encapsulate DECODE unmatched
        have h1 := decompress_raw_append2 DECODE output (encapsulate_list unmatched)
          oO unmatched hO hencl
        have h2 := decompress_raw_append2 DECODE (output ++ encapsulate_list unmatched)
          [code] (oO ++ unmatched) ((s.take (pos + encLen)).drop pos) h1 hone
        refine ih (output ++ encapsulate_list unmatched ++ [code]) [] (pos + encLen)
          (oO ++ unmatched ++ (s.take (pos + encLen)).drop pos) (by omega) hbound h2 ?_
        simp only [List.append_nil]
        rw [hI]
        exact take_add_slice s pos (pos + encLen) (by omega)

/-! ## Completeness of the inner matching loop -/

theorem slice_cons (s : List Nat) (a b : Nat) (hab : a < b) (hb : b ≤ s.length) :
    (s.take b).drop a = s.getD a 0 :: (s.take b).drop (a + 1) := by
  have hlen : a < (s.take b).length := by
    rw [List.length_take]
    omega
  rw [List.drop_eq_getElem_cons hlen]
  congr 1
  rw [List.getD_eq_getElem?_getD, List.getElem?_eq_getElem (show a < s.length by omega)]
  simp only [Option.getD_some]
  exact List.getElem_take s

/-- A search that starts from an already-found best match never loses it:
the result is `some` and at least as long, provided the held length does
not exceed the next candidate length. -/
theorem search_loop_ge (s : List Nat) (pos : Nat) :
    ∀ n (t : Trie) (j : Nat) (b0 L0 : Nat),
      s.length - pos - j ≤ n → L0 ≤ j + 1 →
      ∃ cb Lb, search_loop s pos t j (some (b0, L0)) = some (cb, Lb) ∧ L0 ≤ Lb := by
  intro n
  induction n with
  | zero =>
    intro t j b0 L0 hn hL
    rw [search_loop, dif_neg (by omega)]
    exact ⟨b0, L0, rfl, le_rfl⟩
  | succ m ih =>
    intro t j b0 L0 hn hL
    by_cases hj : j < s.length - pos
    · rw [search_loop, dif_pos hj]
      simp only
      rcases hch : ((t.entries.getD (s.getD (pos + j) 0) none).getD (none, none)).2 with
        _ | t2
      · rcases hpr : ((t.entries.getD (s.getD (pos + j) 0) none).getD (none, none)).1 with
          _ | b
        · exact ⟨b0, L0, rfl, le_rfl⟩
        · exact ⟨b, j + 1, rfl, by omega⟩
      · rcases hpr : ((t.entries.getD (s.getD (pos + j) 0) none).getD (none, none)).1 with
          _ | b
        · exact ih t2 (j + 1) b0 L0 (by omega) (by omega)
        · obtain ⟨cb, Lb, hs, hge⟩ := ih t2 (j + 1) b (j + 1) (by omega) (by omega)
          exact ⟨cb, Lb, hs, by omega⟩
    · rw [search_loop, dif_neg hj]
      exact ⟨b0, L0, rfl, le_rfl⟩

/-- Completeness of the inner matching loop: if the trie holds a terminal
along the input's characters at relative depth `j0`, the search returns a
match at least that long. -/
theorem search_loop_complete (s : List Nat) (pos : Nat) :
    ∀ n (t : Trie) (j : Nat) (best : Option (Nat × Nat)) (j0 c : Nat),
      s.length - pos - j ≤ n →
      j < j0 → pos + j0 ≤ s.length →
      lookupT t ((s.take (pos + j0)).drop (pos + j)) = some c →
      ∃ cb Lb, search_loop s pos t j best = some (cb, Lb) ∧ j0 ≤ Lb := by
  intro n
  induction n with
  | zero =>
    intro t j best j0 c hn hj hj0 hlk
    exfalso
    omega
  | succ m ih =>
    intro t j best j0 c hn hj hj0 hlk
    have hjlt : j < s.length - pos := by omega
    rw [search_loop, dif_pos hjlt]
    simp only
    have hcons : (s.take (pos + j0)).drop (pos + j)
        = s.getD (pos + j) 0 :: (s.take (pos + j0)).drop (pos + j + 1) :=
      slice_cons s (pos + j) (pos + j0) (by omega) (by omega)
    rw [hcons, lookupT_cons] at hlk
    rcases hse : t.entries.getD (s.getD (pos + j) 0) none with _ | ⟨term, children⟩
    · rw [hse] at hlk
      simp at hlk
    · rw [hse] at hlk
      by_cases hrest : j + 1 = j0
      · have hnil : (s.take (pos + j0)).drop (pos + j + 1) = [] := by
          rw [show pos + j0 = pos + j + 1 from by omega]
          exact slice_self s (pos + j + 1)
        rw [hnil] at hlk
        simp at hlk
        subst hlk
        rcases hch2 : children with _ | t2
        · exact ⟨c, j + 1, rfl, by omega⟩
        · obtain ⟨cb, Lb, hsr, hge⟩ :=
            search_loop_ge s pos m t2 (j + 1) c (j + 1) (by omega) (by omega)
          exact ⟨cb, Lb, hsr, by omega⟩
      · have hne2 : (s.take (pos + j0)).drop (pos + j + 1) ≠ [] := by
          have hsl := slice_length s (pos + j + 1) (pos + j0) (by omega)
          intro hx
          rw [hx] at hsl
          simp at hsl
          omega
        rcases hrs : (s.take (pos + j0)).drop (pos + j + 1) with _ | ⟨ch2, rest2⟩
        · exact absurd hrs hne2
        · rw [hrs] at hlk
          rcases hch2 : children with _ | t2
          · rw [hch2] at hlk
            simp at hlk
          · rw [hch2] at hlk
            simp at hlk
            rcases term with _ | b
            · exact ih t2 (j + 1) best j0 c (by omega) (by omega) hj0
                (by rw [show pos + (j + 1) = pos + j + 1 from by omega, hrs]; exact hlk)
            · exact ih t2 (j + 1) (some (b, j + 1)) j0 c (by omega) (by omega) hj0
                (by rw [show pos + (j + 1) = pos + j + 1 from by omega, hrs]; exact hlk)

set_option maxRecDepth 8000 in
theorem DECODE_ascii : ∀ p ∈ DECODE, check_ascii_fn p = true := by decide

set_option maxRecDepth 8000 in
theorem DECODE_entries_ne_nil : ∀ p ∈ DECODE, p ≠ [] := by decide

/-- `_worst_size` is at least 2 on a non-empty input. -/
theorem worst_size_ge_two (n : Nat) (hn : 1 ≤ n) : 2 ≤ worst_size n := by
  rw [worst_size]
  split_ifs <;> omega

/-- A fresh search returns exactly the dictionary entry spanning
`[pos, pos + L0)` when that slice is an entry and no longer slice is. -/
theorem search_exact (s : List Nat) (pos L0 i : Nat)
    (hpos : pos + L0 ≤ s.length) (hL0 : 0 < L0)
    (hi : DECODE[i]? = some ((s.take (pos + L0)).drop pos))
    (hmax : ∀ L, L < s.length - pos + 1 → L0 < L →
      ((s.take (pos + L)).drop pos) ∉ DECODE) :
    search_loop s pos SMAZ_TREE 0 none = some (i, L0) := by
  have hlook : lookupT SMAZ_TREE ((s.take (pos + L0)).drop pos) = some i := by
    refine (SMAZ_TREE_faithful _ i).mpr ⟨hi, ?_⟩
    have hsl := slice_length s pos (pos + L0) hpos
    intro hx
    rw [hx] at hsl
    simp at hsl
    omega
  obtain ⟨cb, Lb, hs, hge⟩ := search_loop_complete s pos (s.length - pos) SMAZ_TREE 0
    none L0 i (by omega) (by omega) hpos
    (by rw [show pos + 0 = pos from by omega]; exact hlook)
  obtain ⟨hposb, hbound, hslice⟩ := search_loop_sound_faithful DECODE SMAZ_TREE
    SMAZ_TREE_faithful s pos (by omega) cb Lb hs
  have hLb : Lb = L0 := by
    by_contra hx
    exact hmax Lb (by omega) (by omega) (List.getElem?_mem hslice)
  subst hLb
  have hcb : cb = i := by
    have hlt : cb < DECODE.length := getElem?_some_lt hslice
    exact List.getElem?_inj hlt DECODE_nodup (by rw [hslice, hi])
  rw [hcb] at hs
  exact hs

/-! ## Top-level round-trip lemmas and the claims -/

/-- A fresh run of the main loop produces a stream that decodes back to
the input, for any table of at most 254 entries with a faithful tree. -/
theorem compress_loop_roundtrip (tbl : List (List Nat)) (tree : Trie)
    (hf : ∀ p c, lookupT tree p = some c ↔ (tbl[c]? = some p ∧ p ≠ []))
    (htbl : tbl.length ≤ 254) (bt : Bool) (limit : Nat) (s : List Nat) :
    decompress_raw tbl (compress_loop tree bt limit s [] [] [] [] 0 0) = some s := by
  refine compress_loop_correct tbl tree hf htbl bt limit s s.length [] [] [] [] 0 0
    [] [] [] (by omega) (by omega) (by simp) (by simp)
    (fun h => absurd rfl h) (decompress_raw_nil tbl) (decompress_raw_nil tbl)
    (decompress_raw_nil tbl) (by simp) ?_
  intro h
  exact ⟨by simp, by simp, by simp⟩

/-- Whatever `compress` returns decodes back to the input. -/
theorem compress_roundtrip_raw (tbl : List (List Nat)) (tree : Trie)
    (hf : ∀ p c, lookupT tree p = some c ↔ (tbl[c]? = some p ∧ p ≠ []))
    (htbl : tbl.length ≤ 254) (s out : List Nat) (ca bt det : Bool) (limit : Nat)
    (h : compress s ca tree bt det limit = some out) :
    decompress_raw tbl out = some s := by
  simp only [compress] at h
  by_cases h1 : s = []
  · rw [if_pos h1] at h
    obtain rfl := Option.some_inj.mp h
    rw [decompress_raw_nil, h1]
  · rw [if_neg h1] at h
    by_cases h2 : ca = true ∧ ¬check_ascii_fn s = true
    · rw [if_pos h2] at h
      simp at h
    · rw [if_neg h2] at h
      by_cases h3 : det = true ∧ worst_size s.length <
          (compress_loop tree bt limit s [] [] [] [] 0 0).length
      · rw [if_pos h3] at h
        obtain rfl := Option.some_inj.mp h
        exact decompress_raw_encapsulate tbl s
      · rw [if_neg h3] at h
        obtain rfl := Option.some_inj.mp h
        exact compress_loop_roundtrip tbl tree hf htbl bt limit s

/-- A raw decode success lifts to the `decompress` wrapper with the
default table and no ASCII check. -/
theorem decompress_of_raw (out s : List Nat) (r : Bool)
    (h : decompress_raw DECODE out = some s) :
    decompress out r false [] = .ok s := by
  simp only [decompress]
  by_cases ho : out = []
  · rw [if_pos ho]
    rw [ho, decompress_raw_nil] at h
    exact congrArg DecompressResult.ok (Option.some_inj.mp h)
  · rw [if_neg ho, if_pos trivial, h]
    simp

/-- The `compress` wrapper passes the loop output through unchanged when
the input is non-empty ASCII and the output did not outgrow the bound. -/
theorem compress_wrapper_output (s : List Nat) (bt : Bool) (hne : s ≠ [])
    (hascii : check_ascii_fn s = true) (out : List Nat)
    (hloop : compress_loop SMAZ_TREE bt BACKTRACK_LIMIT s [] [] [] [] 0 0 = out)
    (hsize : ¬ worst_size s.length < out.length) :
    compress s true SMAZ_TREE bt true BACKTRACK_LIMIT = some out := by
  simp only [compress]
  rw [if_neg hne, if_neg (by simp [hascii]), hloop, if_neg (by simpa using hsize)]

/-- An input on which the very first search matches the whole string
compresses to the single returned code. -/
theorem compress_loop_single (s : List Nat) (i : Nat) (bt : Bool) (limit : Nat)
    (hne : s ≠ [])
    (hsr : search_loop s 0 SMAZ_TREE 0 none = some (i, s.length)) :
    compress_loop SMAZ_TREE bt limit s [] [] [] [] 0 0 = [i] := by
  have hp : 0 < s.length := List.length_pos.mpr hne
  rw [compress_loop_step_some SMAZ_TREE bt limit s [] [] [] [] 0 0 i s.length hp hsr,
    if_pos rfl]
  rw [compress_loop, dif_neg (by omega)]
  rw [show encapsulate_list ([] : List Nat) = [] from by simp [encapsulate_list]]
  rfl

set_option maxRecDepth 8000 in
/-- `"thethethe"` is compressed by three greedy matches of the entry
`"the"` (code 1). -/
theorem compress_loop_tt9 (bt : Bool) (limit : Nat) :
    compress_loop SMAZ_TREE bt limit (strBytes "thethethe") [] [] [] [] 0 0
      = [1, 1, 1] := by
  have h0 : search_loop (strBytes "thethethe") 0 SMAZ_TREE 0 none = some (1, 3) :=
    search_exact _ 0 3 1 (by decide) (by decide) (by decide) (by decide)
  have h3 : search_loop (strBytes "thethethe") 3 SMAZ_TREE 0 none = some (1, 3) :=
    search_exact _ 3 3 1 (by decide) (by decide) (by decide) (by decide)
  have h6 : search_loop (strBytes "thethethe") 6 SMAZ_TREE 0 none = some (1, 3) :=
    search_exact _ 6 3 1 (by decide) (by decide) (by decide) (by decide)
  rw [compress_loop_step_some SMAZ_TREE bt limit (strBytes "thethethe") [] [] [] [] 0 0
    1 3 (by decide) h0, if_pos rfl]
  show compress_loop SMAZ_TREE bt limit (strBytes "thethethe") [] [] [] [1] 0 3
    = [1, 1, 1]
  rw [compress_loop_step_some SMAZ_TREE bt limit (strBytes "thethethe") [] [] [] [1] 0 3
    1 3 (by decide) h3, if_pos rfl]
  show compress_loop SMAZ_TREE bt limit (strBytes "thethethe") [] [] [] [1, 1] 0 6
    = [1, 1, 1]
  rw [compress_loop_step_some SMAZ_TREE bt limit (strBytes "thethethe") [] [] [] [1, 1]
    0 6 1 3 (by decide) h6, if_pos rfl]
  show compress_loop SMAZ_TREE bt limit (strBytes "thethethe") [] [] [] [1, 1, 1] 0 9
    = [1, 1, 1]
  rw [compress_loop, dif_neg (by decide)]
  rw [show encapsulate_list ([] : List Nat) = [] from by simp [encapsulate_list]]
  rfl

/-- C1: for every ASCII string `s` (including empty), decompressing the
compressed form with the default dictionary returns `s`, for both
backtracking settings of `compress` and for `compress_classic`. -/
theorem claim_C1_roundtrip (s : List Nat) (bt : Bool)
    (hascii : check_ascii_fn s = true) :
    ∃ out, compress s true SMAZ_TREE bt true BACKTRACK_LIMIT = some out ∧
      decompress out true false [] = .ok s ∧
      decompress (compress_classic s true) true false [] = .ok s := by
  have htbl : DECODE.length ≤ 254 := by rw [DECODE_length]
  obtain ⟨out, hout⟩ :
      ∃ out, compress s true SMAZ_TREE bt true BACKTRACK_LIMIT = some out := by
    simp only [compress]
    split_ifs with h1 h2 h3
    · exact ⟨[], rfl⟩
    · exact absurd h2 (by simp [hascii])
    · exact ⟨_, rfl⟩
    · exact ⟨_, rfl⟩
  have hraw := compress_roundtrip_raw DECODE SMAZ_TREE SMAZ_TREE_faithful htbl s out
    true bt true BACKTRACK_LIMIT hout
  have hclassic : decompress_raw DECODE (compress_classic s true) = some s := by
    simp only [compress_classic]
    split_ifs with h1 h2
    · rw [decompress_raw_nil, h1]
    · exact decompress_raw_encapsulate DECODE s
    · exact compress_classic_loop_correct s s.length [] [] 0 [] (by omega) (by omega)
        (decompress_raw_nil DECODE) (by simp)
  exact ⟨out, hout, decompress_of_raw out s true hraw,
    decompress_of_raw _ s true hclassic⟩

/-- Witness for C1 at the ASCII input `"the"`. -/
theorem claim_C1_witness :
    ∃ out, compress (strBytes "the") true SMAZ_TREE true true BACKTRACK_LIMIT
        = some out ∧
      decompress out true false [] = .ok (strBytes "the") ∧
      decompress (compress_classic (strBytes "the") true) true false []
        = .ok (strBytes "the") :=
  claim_C1_roundtrip (strBytes "the") true (by decide)

/-- C2: with pathological-case detection on, the output of either encoder
never exceeds `_worst_size` of the input length. -/
theorem claim_C2_worst_case_bound (s : List Nat) (ca bt : Bool) (tree : Trie)
    (limit : Nat) (out : List Nat)
    (h : compress s ca tree bt true limit = some out) :
    out.length ≤ worst_size s.length ∧
      (compress_classic s true).length ≤ worst_size s.length := by
  constructor
  · simp only [compress] at h
    by_cases h1 : s = []
    · rw [if_pos h1] at h
      obtain rfl := Option.some_inj.mp h
      rw [h1]
      simp [worst_size]
    · rw [if_neg h1] at h
      by_cases h2 : ca = true ∧ ¬check_ascii_fn s = true
      · rw [if_pos h2] at h
        simp at h
      · rw [if_neg h2] at h
        by_cases h3 : True ∧ worst_size s.length <
            (compress_loop tree bt limit s [] [] [] [] 0 0).length
        · rw [if_pos h3] at h
          obtain rfl := Option.some_inj.mp h
          exact le_of_eq (length_encapsulate s)
        · rw [if_neg h3] at h
          obtain rfl := Option.some_inj.mp h
          simp only [not_and, not_lt] at h3
          exact h3 trivial
  · simp only [compress_classic]
    split_ifs with h1 h2
    · rw [h1]
      simp [worst_size]
    · exact le_of_eq (length_encapsulate s)
    · simp only [not_and, not_lt] at h2
      exact h2 (by simp)

/-- Witness for C2 at the empty input. -/
theorem claim_C2_witness :
    ([] : List Nat).length ≤ worst_size ([] : List Nat).length ∧
      (compress_classic [] true).length ≤ worst_size ([] : List Nat).length :=
  claim_C2_worst_case_bound [] true true SMAZ_TREE 254 [] rfl

/-- C4: `_worst_size` is exactly the length of the unconditional
encapsulation, with `_worst_size(0) = 0` and `_worst_size(1) = 2`. -/
theorem claim_C4_worst_size_exact (s : List Nat) :
    worst_size s.length = (encapsulate s).length ∧
      worst_size 0 = 0 ∧ worst_size 1 = 2 :=
  ⟨(length_encapsulate s).symm, rfl, rfl⟩

/-- C5: decoding the unconditional encapsulation returns the input
exactly, for every byte sequence and every decode table argument. -/
theorem claim_C5_encapsulate_roundtrip (s : List Nat) (tbl : List (List Nat))
    (r : Bool) :
    decompress (encapsulate s) r false tbl = .ok s := by
  simp only [decompress]
  by_cases he : encapsulate s = []
  · rw [if_pos he]
    have h := decompress_raw_encapsulate DECODE s
    rw [he, decompress_raw_nil] at h
    exact congrArg DecompressResult.ok (Option.some_inj.mp h)
  · rw [if_neg he]
    by_cases ht : tbl = []
    · rw [if_pos ht, decompress_raw_encapsulate DECODE s]
      simp
    · rw [if_neg ht, decompress_raw_encapsulate tbl s]
      simp

set_option maxRecDepth 8000 in
/-- C8: a string equal to a dictionary entry of index `i` compresses to
the single byte `i` (necessarily `< 254`), and `"thethethe"` compresses
to the 3 bytes `[1, 1, 1]`. -/
theorem claim_C8_single_entry (s : List Nat) (i : Nat) (bt : Bool)
    (hi : DECODE[i]? = some s) :
    compress s true SMAZ_TREE bt true BACKTRACK_LIMIT = some [i] ∧ i < 254 ∧
      compress (strBytes "thethethe") true SMAZ_TREE bt true BACKTRACK_LIMIT
        = some [1, 1, 1] ∧
      (strBytes "thethethe").length = 9 := by
  have hmem : s ∈ DECODE := List.getElem?_mem hi
  have hne : s ≠ [] := DECODE_entries_ne_nil s hmem
  have hascii : check_ascii_fn s = true := DECODE_ascii s hmem
  have hilt : i < 254 := by
    have hlt := getElem?_some_lt hi
    rwa [DECODE_length] at hlt
  have hlp : 0 < s.length := List.length_pos.mpr hne
  have hsr : search_loop s 0 SMAZ_TREE 0 none = some (i, s.length) := by
    refine search_exact s 0 s.length i (by omega) hlp ?_ ?_
    · rw [show (0 : Nat) + s.length = s.length from by omega, List.take_length,
        List.drop_zero]
      exact hi
    · intro L h1 h2
      exact absurd h2 (by omega)
  have hloop := compress_loop_single s i bt BACKTRACK_LIMIT hne hsr
  have hcomp : compress s true SMAZ_TREE bt true BACKTRACK_LIMIT = some [i] :=
    compress_wrapper_output s bt hne hascii [i] hloop (by
      have h2 := worst_size_ge_two s.length (by omega)
      simp only [List.length_cons, List.length_nil]
      omega)
  have htt : compress (strBytes "thethethe") true SMAZ_TREE bt true BACKTRACK_LIMIT
      = some [1, 1, 1] :=
    compress_wrapper_output (strBytes "thethethe") bt (by decide) (by decide)
      [1, 1, 1] (compress_loop_tt9 bt BACKTRACK_LIMIT) (by decide)
  exact ⟨hcomp, hilt, htt, by decide⟩

set_option maxRecDepth 8000 in
/-- Witness for C8 at the dictionary entry `" "` (index 0). -/
theorem claim_C8_witness :
    compress (strBytes " ") true SMAZ_TREE true true BACKTRACK_LIMIT
        = some [0] ∧ 0 < 254 ∧
      compress (strBytes "thethethe") true SMAZ_TREE true true BACKTRACK_LIMIT
        = some [1, 1, 1] ∧
      (strBytes "thethethe").length = 9 :=
  claim_C8_single_entry (strBytes " ") 0 true (by decide)

/-- C9: the round trip extends to arbitrary 8-bit input when the ASCII
check is disabled: `compress` succeeds and decoding returns the input,
for both backtracking settings. -/
theorem claim_C9_roundtrip (s : List Nat) (bt : Bool) (h8 : ∀ c ∈ s, c < 256) :
    ∃ out, compress s false SMAZ_TREE bt true BACKTRACK_LIMIT = some out ∧
      decompress out true false [] = .ok s := by
  have htbl : DECODE.length ≤ 254 := by rw [DECODE_length]
  obtain ⟨out, hout⟩ :
      ∃ out, compress s false SMAZ_TREE bt true BACKTRACK_LIMIT = some out := by
    simp only [compress]
    split_ifs with h1 h2 h3
    · exact ⟨[], rfl⟩
    · exact absurd h2 (by simp)
    · exact ⟨_, rfl⟩
    · exact ⟨_, rfl⟩
  exact ⟨out, hout, decompress_of_raw out s true
    (compress_roundtrip_raw DECODE SMAZ_TREE SMAZ_TREE_faithful htbl s out
      false bt true BACKTRACK_LIMIT hout)⟩

/-- Witness for C9 at the non-ASCII input `[200]`. -/
theorem claim_C9_witness :
    ∃ out, compress [200] false SMAZ_TREE true true BACKTRACK_LIMIT = some out ∧
      decompress out true false [] = .ok [200] :=
  claim_C9_roundtrip [200] true (by decide)

/-! ## Malformed streams (C6), dictionary validation (C7), short tables (C10) -/

/-- Spec-side definition, transcribed from the claim's wording: a stream
is truncated when a tag byte 254 or 255 lacks its follow-up byte, or a
length-prefixed run declares more bytes than remain; dictionary-code
bytes and run payloads are passed over exactly as the decoder consumes
them.  It is compared against the source-side `decompress`. -/
def truncated : List Nat → Bool
  | [] => false
  | ch :: rest =>
    if ch < 254 then truncated rest
    else
      match rest with
      | [] => true
      | nb :: rest2 =>
        if ch = 254 then truncated rest2
        else
          if rest2.length < nb + 1 then true
          else truncated (rest2.drop (nb + 1))
termination_by l => l.length
decreasing_by
  all_goals simp only [List.length_cons, List.length_drop]
  all_goals omega

theorem truncated_nil : truncated [] = false := by
  rw [truncated.eq_1]

theorem truncated_cons (ch : Nat) (rest : List Nat) :
    truncated (ch :: rest) =
      if ch < 254 then truncated rest
      else
        match rest with
        | [] => true
        | nb :: rest2 =>
          if ch = 254 then truncated rest2
          else
            if rest2.length < nb + 1 then true
            else truncated (rest2.drop (nb + 1)) := by
  cases rest with
  | nil => rw [truncated.eq_2]
  | cons nb rest2 => rw [truncated.eq_3]

theorem truncated_cons2 (ch nb : Nat) (rest2 : List Nat) (hch : ¬ ch < 254) :
    truncated (ch :: nb :: rest2) =
      if ch = 254 then truncated rest2
      else
        if rest2.length < nb + 1 then true
        else truncated (rest2.drop (nb + 1)) := by
  rw [truncated.eq_3, if_neg hch]

theorem truncated_one (ch : Nat) (hch : ¬ ch < 254) : truncated [ch] = true := by
  rw [truncated_cons, if_neg hch]

/-- With a table covering all codes `< 254`, the raw decoder fails
exactly on truncated streams. -/
theorem decompress_raw_none_iff (tbl : List (List Nat))
    (htbl : ∀ ch, ch < 254 → ch < tbl.length) :
    ∀ n inp, inp.length ≤ n →
      (decompress_raw tbl inp = none ↔ truncated inp = true) := by
  intro n
  induction n with
  | zero =>
    intro inp hlen
    obtain rfl : inp = [] := List.length_eq_zero.mp (by omega)
    rw [decompress_raw_nil, truncated_nil]
    simp
  | succ m ih =>
    intro inp hlen
    rcases inp with _ | ⟨ch, rest⟩
    · rw [decompress_raw_nil, truncated_nil]
      simp
    · by_cases hch : ch < 254
      · rw [decompress_raw_cons, truncated_cons, if_pos hch, if_pos hch,
          List.getElem?_eq_getElem (htbl ch hch)]
        have hlen2 : rest.length ≤ m := by
          simp only [List.length_cons] at hlen
          omega
        rcases hr : decompress_raw tbl rest with _ | o
        · have hrt := (ih rest hlen2).mp hr
          simp [hr, hrt]
        · have hrt := ih rest hlen2
          rw [hr] at hrt
          simp at hrt
          simp [hr, hrt]
      · rcases rest with _ | ⟨nb, rest2⟩
        · rw [decompress_raw_cons, if_neg hch, truncated_cons, if_neg hch]
          simp
        · rw [decompress_raw_cons2 tbl ch nb rest2 hch, truncated_cons2 ch nb rest2 hch]
          by_cases h254 : ch = 254
          · rw [if_pos h254, if_pos h254]
            have hlen2 : rest2.length ≤ m := by
              simp only [List.length_cons] at hlen
              omega
            rcases hr : decompress_raw tbl rest2 with _ | o
            · have hrt := (ih rest2 hlen2).mp hr
              simp [hr, hrt]
            · have hrt := ih rest2 hlen2
              rw [hr] at hrt
              simp at hrt
              simp [hr, hrt]
          · rw [if_neg h254, if_neg h254]
            by_cases hrun : rest2.length < nb + 1
            · rw [if_pos hrun, if_pos hrun]
              simp
            · rw [if_neg hrun, if_neg hrun]
              have hlen2 : (rest2.drop (nb + 1)).length ≤ m := by
                simp only [List.length_cons] at hlen
                simp only [List.length_drop]
                omega
              rcases hr : decompress_raw tbl (rest2.drop (nb + 1)) with _ | o
              · have hrt := (ih _ hlen2).mp hr
                simp [hr, hrt]
              · have hrt := ih _ hlen2
                rw [hr] at hrt
                simp at hrt
                simp [hr, hrt]

/-- C6: with the default table, `decompress` fails exactly on truncated
streams (raising or returning the sentinel as `raise_on_error` selects);
in particular `[255, 255]`, `[254]` and `[255]` are truncated. -/
theorem claim_C6_truncation (inp : List Nat) (r : Bool) (hne : inp ≠ []) :
    ((decompress inp r false [] =
        if r then DecompressResult.raised else DecompressResult.sentinel) ↔
      truncated inp = true) ∧
      truncated [255, 255] = true ∧ truncated [254] = true ∧
      truncated [255] = true := by
  have hiff := decompress_raw_none_iff DECODE
    (fun ch h => by rw [DECODE_length]; exact h) inp.length inp le_rfl
  refine ⟨⟨?_, ?_⟩, ?_, ?_, ?_⟩
  · intro h
    rcases hr : decompress_raw DECODE inp with _ | o
    · exact hiff.mp hr
    · exfalso
      have hok := decompress_of_raw inp o r hr
      rw [hok] at h
      cases r
      · simp at h
      · simp at h
  · intro ht
    have hraw := hiff.mpr ht
    simp only [decompress]
    rw [if_neg hne, if_pos trivial, hraw]
  · rw [truncated_cons2 255 255 [] (by omega), if_neg (by omega),
      if_pos (by decide)]
  · exact truncated_one 254 (by omega)
  · exact truncated_one 255 (by omega)

/-- Witness for C6 at the truncated stream `[255, 255]`. -/
theorem claim_C6_witness :
    ((decompress [255, 255] true false [] =
        if true then DecompressResult.raised else DecompressResult.sentinel) ↔
      truncated [255, 255] = true) ∧
      truncated [255, 255] = true ∧ truncated [254] = true ∧
      truncated [255] = true :=
  claim_C6_truncation [255, 255] true (by decide)

/-- C7: `make_trie` fails exactly on an empty list, a list of more than
254 entries, or a structural duplicate (two equal non-empty entries);
it succeeds on every other byte-string list. -/
theorem claim_C7_make_trie (tbl : List (List Nat))
    (hb : ∀ s ∈ tbl, ∀ c ∈ s, c < 256) :
    make_trie tbl = .error () ↔
      (tbl = [] ∨ 254 < tbl.length ∨
        ∃ i j : Nat, ∃ p : List Nat,
          i < j ∧ tbl[i]? = some p ∧ tbl[j]? = some p ∧ p ≠ []) := by
  constructor
  · intro h
    exact make_trie_err_elim tbl hb () h
  · intro hbad
    rcases hmt : make_trie tbl with e | t
    · cases e
      rfl
    · exfalso
      obtain ⟨hne, hle, hnodup, _⟩ := make_trie_ok_elim tbl hb t hmt
      rcases hbad with h1 | h2 | ⟨i, j, p, hij, hi, hj, hpne⟩
      · exact hne h1
      · omega
      · exact hpne (hnodup i j p hij hi hj)

/-- Witness for C7 at the empty table. -/
theorem claim_C7_witness :
    make_trie ([] : List (List Nat)) = .error () ↔
      (([] : List (List Nat)) = [] ∨ 254 < ([] : List (List Nat)).length ∨
        ∃ i j : Nat, ∃ p : List Nat,
          i < j ∧ ([] : List (List Nat))[i]? = some p ∧
            ([] : List (List Nat))[j]? = some p ∧ p ≠ []) :=
  claim_C7_make_trie [] (by simp)

set_option maxRecDepth 8000 in
/-- Counterexample to C10 as stated: the empty table is shorter than 254
entries, yet decoding `[0]` against it succeeds, because a falsy
`decompress_table` argument silently falls back to the default `DECODE`
table (`decompress_table or DECODE`, smaz.py line 560). -/
theorem claim_C10_counterexample :
    decompress [0] true false [] = DecompressResult.ok [32] := by
  have h0 : DECODE[0]? = some [32] := by decide
  have h : decompress_raw DECODE [0] = some [32] := by
    rw [decompress_raw_cons, if_pos (by omega), h0, decompress_raw_nil]
    rfl
  exact decompress_of_raw [0] [32] true h

/-- C10 (amended): for every non-empty table shorter than 254 entries, a
stream holding an out-of-range dictionary code after a decodable prefix
does not return partial output: it raises with `raise_on_error=True` and
returns the sentinel with `raise_on_error=False`. -/
theorem claim_C10_out_of_range (tbl : List (List Nat)) (pre post : List Nat)
    (c : Nat) (r : Bool) (o : List Nat)
    (hne : tbl ≠ []) (hc : tbl.length ≤ c) (hc2 : c < 254)
    (hpre : decompress_raw tbl pre = some o) :
    decompress (pre ++ c :: post) r false tbl =
      (if r then DecompressResult.raised else DecompressResult.sentinel) := by
  have h1 : decompress_raw tbl (c :: post) = none := by
    rw [decompress_raw_cons, if_pos hc2, List.getElem?_eq_none hc]
    rfl
  have hraw : decompress_raw tbl (pre ++ c :: post) = none := by
    rw [decompress_raw_append tbl pre.length pre le_rfl o hpre (c :: post), h1]
    rfl
  simp only [decompress]
  rw [if_neg (by simp), if_neg hne, hraw]

/-- Witness for the amended C10 at the one-entry table `[[32]]`. -/
theorem claim_C10_witness :
    decompress ([] ++ 1 :: []) true false [[32]] =
      (if true then DecompressResult.raised else DecompressResult.sentinel) :=
  claim_C10_out_of_range [[32]] [] [] 1 true [] (by simp) (by simp) (by omega)
    (decompress_raw_nil [[32]])

end PySmaz
